import Mathlib

/-!
# git-privacy: verification of spec claims against a shallow embedding

This file embeds the core logic of the `git-privacy` tool in Lean 4 and
settles a list of claims about it.

Embedding conventions:
* Python `datetime` objects (always timezone-aware with a fixed UTC offset in
  this code base) are modelled by the broken-down record `DT` below, mirroring
  the field-wise storage of `datetime` (year, month, day, hour, minute,
  second, offset in minutes).  Git commit datetimes are whole seconds, so the
  microsecond field (never touched by any code under scrutiny) is omitted.
* Python strings are modelled as `List Char` (`PyStr`); Python exceptions are
  modelled with `Except PyErr`.
* The NaCl `SecretBox` primitive is an external dependency; it is modelled
  abstractly as a pair of functions (`encrypt`, `decrypt`) and the claims that
  need its authenticated-encryption contract take it as a hypothesis.
-/

set_option maxHeartbeats 4000000

namespace GitPrivacy

/-- Python exception kinds relevant to the embedded code. -/
inductive PyErr where
  | valueError
  | typeError
  | assertionError
  deriving DecidableEq, Repr

/-- Broken-down timezone-aware datetime, mirroring Python's `datetime`
storage: calendar fields plus a fixed UTC offset in minutes (`tzinfo`).
Fields are `Int` so that arithmetic side conditions stay in linear
arithmetic; `ValidDT` below captures Python's range invariants. -/
@[ext]
structure DT where
  year : Int
  month : Int
  day : Int
  hour : Int
  minute : Int
  second : Int
  offMin : Int
  deriving DecidableEq, Repr

/-- Proleptic Gregorian leap-year test (as in Python's `calendar.isleap`). -/
def isLeap (y : Int) : Bool :=
  y % 4 = 0 && (y % 100 ≠ 0 || y % 400 = 0)

/-- Length of month `m` of year `y`. -/
def daysInMonth (y m : Int) : Int :=
  if m = 2 then (if isLeap y then 29 else 28)
  else if m = 4 ∨ m = 6 ∨ m = 9 ∨ m = 11 then 30
  else 31

/-- Validity of a `DT`: the ranges Python's `datetime` enforces on
construction (year 1..9999, real calendar day, offset strictly less than a
day in either direction). -/
def ValidDT (t : DT) : Prop :=
  1 ≤ t.year ∧ t.year ≤ 9999 ∧
  1 ≤ t.month ∧ t.month ≤ 12 ∧
  1 ≤ t.day ∧ t.day ≤ daysInMonth t.year t.month ∧
  0 ≤ t.hour ∧ t.hour ≤ 23 ∧
  0 ≤ t.minute ∧ t.minute ≤ 59 ∧
  0 ≤ t.second ∧ t.second ≤ 59 ∧
  -1439 ≤ t.offMin ∧ t.offMin ≤ 1439

instance (t : DT) : Decidable (ValidDT t) := by
  unfold ValidDT; infer_instance

/-! ## Date redacter (`gitprivacy/dateredacter/reduce.py`)

`ResolutionDateRedacter.redact` first coarsens the fields named by the
pattern, then calls `_enforce_limit`.  The pattern is a configuration string
(e.g. `"m,s"`); Python's `"M" in self.pattern` test is single-character
substring containment, i.e. character membership.  The limit is stored as a
parsed `(start, end)` pair (`None` when unset). -/

/-- The five `timestamp.replace(...)` steps of `redact` (reduce.py lines
28-37), before `_enforce_limit` is applied. -/
def coarsen (pattern : List Char) (t : DT) : DT :=
  let t1 := if pattern.contains 'M' then { t with month := 1 } else t
  let t2 := if pattern.contains 'd' then { t1 with day := 1 } else t1
  let t3 := if pattern.contains 'h' then { t2 with hour := 0 } else t2
  let t4 := if pattern.contains 'm' then { t3 with minute := 0 } else t3
  if pattern.contains 's' then { t4 with second := 0 } else t4

/-- `ResolutionDateRedacter._enforce_limit` (reduce.py lines 41-49): two
sequential `if`s clamping the hour window. -/
def enforceLimit (limit : Option (Int × Int)) (t : DT) : DT :=
  match limit with
  | none => t
  | some (s, e) =>
    let t1 := if t.hour < s then { t with hour := s, minute := 0, second := 0 } else t
    if e ≤ t1.hour then { t1 with hour := e, minute := 0, second := 0 } else t1

/-- `ResolutionDateRedacter.redact` (reduce.py lines 22-39). -/
def redact (pattern : List Char) (limit : Option (Int × Int)) (t : DT) : DT :=
  enforceLimit limit (coarsen pattern t)

theorem coarsen_year (p : List Char) (t : DT) : (coarsen p t).year = t.year := by
  simp only [coarsen]; split <;> split <;> split <;> split <;> split <;> rfl

theorem coarsen_offMin (p : List Char) (t : DT) : (coarsen p t).offMin = t.offMin := by
  simp only [coarsen]; split <;> split <;> split <;> split <;> split <;> rfl

theorem enforceLimit_year (l : Option (Int × Int)) (t : DT) :
    (enforceLimit l t).year = t.year := by
  unfold enforceLimit
  rcases l with _ | ⟨s, e⟩
  · rfl
  · dsimp only; split <;> split <;> rfl

theorem enforceLimit_offMin (l : Option (Int × Int)) (t : DT) :
    (enforceLimit l t).offMin = t.offMin := by
  unfold enforceLimit
  rcases l with _ | ⟨s, e⟩
  · rfl
  · dsimp only; split <;> split <;> rfl

/-- C2: redaction never alters the timezone offset (and also leaves the year
untouched); only the month, day, hour, minute and second fields of the
broken-down time can change. -/
theorem redact_preserves_offset (p : List Char) (l : Option (Int × Int)) (t : DT) :
    (redact p l t).offMin = t.offMin ∧ (redact p l t).year = t.year := by
  unfold redact
  exact ⟨(enforceLimit_offMin l _).trans (coarsen_offMin p t),
         (enforceLimit_year l _).trans (coarsen_year p t)⟩

/-- Closed form of `coarsen`: each field is set to its minimum exactly when
its token occurs in the pattern. -/
theorem coarsen_eq (p : List Char) (t : DT) :
    coarsen p t = ⟨t.year, if p.contains 'M' then 1 else t.month,
      if p.contains 'd' then 1 else t.day, if p.contains 'h' then 0 else t.hour,
      if p.contains 'm' then 0 else t.minute, if p.contains 's' then 0 else t.second,
      t.offMin⟩ := by
  by_cases hM : 'M' ∈ p <;> by_cases hD : 'd' ∈ p <;>
    by_cases hH : 'h' ∈ p <;> by_cases hm : 'm' ∈ p <;>
    by_cases hs : 's' ∈ p <;>
  simp [coarsen, hM, hD, hH, hm, hs]

/-- Closed form of `_enforce_limit` for a configured window: the two
sequential `if`s of the source collapse to a three-way case split on the
hour. -/
theorem enforceLimit_some_eq (s e : Int) (t : DT) :
    enforceLimit (some (s, e)) t =
      ⟨t.year, t.month, t.day,
        if e ≤ (if t.hour < s then s else t.hour) then e
          else if t.hour < s then s else t.hour,
        if e ≤ (if t.hour < s then s else t.hour) then 0
          else if t.hour < s then 0 else t.minute,
        if e ≤ (if t.hour < s then s else t.hour) then 0
          else if t.hour < s then 0 else t.second,
        t.offMin⟩ := by
  simp only [enforceLimit]
  split_ifs <;> simp_all

/-- C1: for every timestamp and every policy (any pattern string, and an
optional hour window with `0 ≤ start < end ≤ 24`), `redact` is idempotent:
redacting twice equals redacting once. -/
theorem redact_idem (p : List Char) (l : Option (Int × Int))
    (hlim : ∀ s e, l = some (s, e) → 0 ≤ s ∧ s < e ∧ e ≤ 24) (t : DT) :
    redact p l (redact p l t) = redact p l t := by
  rcases l with _ | ⟨s, e⟩
  · show enforceLimit none (coarsen p (enforceLimit none (coarsen p t)))
        = enforceLimit none (coarsen p t)
    simp only [enforceLimit]
    rw [coarsen_eq, coarsen_eq]
    ext <;> simp <;> split_ifs <;> simp_all
  · obtain ⟨h0, hse, h24⟩ := hlim s e rfl
    unfold redact
    rw [coarsen_eq p t, enforceLimit_some_eq, coarsen_eq, enforceLimit_some_eq]
    ext <;> dsimp only <;> split_ifs <;> omega

/-- Witness for C1 at a concrete timestamp and policy. -/
theorem redact_idem_witness :
    redact ['m', 's'] (some (9, 17)) (redact ['m', 's'] (some (9, 17))
        ⟨2018, 12, 18, 8, 42, 13, 60⟩)
      = redact ['m', 's'] (some (9, 17)) ⟨2018, 12, 18, 8, 42, 13, 60⟩ :=
  redact_idem ['m', 's'] (some (9, 17))
    (by intro s e h; simp only [Option.some.injEq, Prod.mk.injEq] at h; omega)
    ⟨2018, 12, 18, 8, 42, 13, 60⟩

/-- C9: with a window `[start, end)` (`0 ≤ start < end ≤ 24`), `redact`
clamps after coarsening: hour below `start` becomes `(start,0,0)`, hour at
least `end` becomes `(end,0,0)`; an hour equal to `start` is unchanged, an
hour equal to `end` clamps to `(end,0,0)`, and with the window `0-24` the
clamp never changes a timestamp whose hour is in range. -/
theorem redact_limit_clamp (p : List Char) (s e : Int)
    (hs : 0 ≤ s) (hse : s < e) (he : e ≤ 24) (t : DT) :
    (redact p (some (s, e)) t =
      if (coarsen p t).hour < s then
        { coarsen p t with hour := s, minute := 0, second := 0 }
      else if e ≤ (coarsen p t).hour then
        { coarsen p t with hour := e, minute := 0, second := 0 }
      else coarsen p t) ∧
    ((coarsen p t).hour = s → redact p (some (s, e)) t = coarsen p t) ∧
    ((coarsen p t).hour = e → redact p (some (s, e)) t =
      { coarsen p t with hour := e, minute := 0, second := 0 }) ∧
    (s = 0 → e = 24 → 0 ≤ t.hour → t.hour ≤ 23 →
      redact p (some (s, e)) t = coarsen p t) := by
  refine ⟨?_, ?_, ?_, ?_⟩ <;>
    [skip; intro hh; intro hh; intro h1 h2 h3 h4] <;>
    unfold redact <;>
    rw [enforceLimit_some_eq] <;>
    rw [coarsen_eq p t] at * <;>
    ext <;> dsimp only at * <;> split_ifs at * <;> (try dsimp only at *) <;> omega

/-- Witness for C9 at the spec's own example window `9-17` (spec scenario
S2): `08:42:15` clamps to `09:00:00` and `17:42:15` to `17:00:00`. -/
theorem redact_limit_clamp_witness :
    redact [] (some (9, 17)) ⟨2018, 12, 18, 8, 42, 15, 0⟩
        = ⟨2018, 12, 18, 9, 0, 0, 0⟩ ∧
    redact [] (some (9, 17)) ⟨2018, 12, 18, 17, 42, 15, 0⟩
        = ⟨2018, 12, 18, 17, 0, 0, 0⟩ := by
  constructor
  · have h := (redact_limit_clamp [] 9 17 (by norm_num) (by norm_num) (by norm_num)
      ⟨2018, 12, 18, 8, 42, 15, 0⟩).1
    exact h.trans (by decide)
  · have h := (redact_limit_clamp [] 9 17 (by norm_num) (by norm_num) (by norm_num)
      ⟨2018, 12, 18, 17, 42, 15, 0⟩).1
    exact h.trans (by decide)


/-! ## Calendar arithmetic (model of Python's `datetime` instant conversions)

`utils.dt2gitdate` calls `datetime.timestamp()` and `utils.gitdate2dt` calls
`datetime.fromtimestamp(..., tz)`; both are Python standard library
(external).  They convert between broken-down proleptic-Gregorian civil time
and linear day/second counts.  We model the civil/linear conversion with the
standard era-based algorithm (equivalent to CPython's `_ymd2ord`/`_ord2ymd`)
and prove it is an inverse pair on valid dates, which is the contract the
round-trip claims need.  `ordFromCivil` counts days since 1970-01-01. -/

def dfcDoe (yp mp dd : Int) : Int :=
  (yp / 400) * 146097 +
    (365 * (yp % 400) + (yp % 400) / 4 - (yp % 400) / 100 + ((153 * mp + 2) / 5 + dd))

def ordFromCivil (y m d : Int) : Int :=
  dfcDoe (if m ≤ 2 then y - 1 else y) (if 2 < m then m - 3 else m + 9) (d - 1) - 719468

def civilCore (zz : Int) : Int × Int × Int :=
  let era := zz / 146097
  let doe := zz % 146097
  let yoe := (doe - doe / 1460 + doe / 36524 - doe / 146096) / 365
  let doy := doe - (365 * yoe + yoe / 4 - yoe / 100)
  let mp := (5 * doy + 2) / 153
  (era * 400 + yoe, mp, doy - (153 * mp + 2) / 5)

def civilFromOrd (z : Int) : Int × Int × Int :=
  match civilCore (z + 719468) with
  | (y0, mp, dd) => (y0 + (if (if mp < 10 then mp + 3 else mp - 9) ≤ 2 then 1 else 0),
      if mp < 10 then mp + 3 else mp - 9, dd + 1)


theorem doeRec (yoe doy D : Int) (h1 : 0 ≤ yoe) (h2 : yoe ≤ 399) (h3 : 0 ≤ doy)
    (h4 : doy ≤ 364 ∨ (doy = 365 ∧ (yoe + 1) % 4 = 0 ∧ ((yoe + 1) % 100 ≠ 0 ∨ yoe = 399)))
    (hD : D = 365 * yoe + yoe / 4 - yoe / 100 + doy) :
    (D - D / 1460 + D / 36524 - D / 146096) / 365 = yoe := by
  obtain ⟨c, q, r, hc1, hc2, hq1, hq2, hr1, hr2, hyoe⟩ :
      ∃ c q r, 0 ≤ c ∧ c ≤ 3 ∧ 0 ≤ q ∧ q ≤ 24 ∧ 0 ≤ r ∧ r ≤ 3 ∧
        yoe = 100 * c + 4 * q + r :=
    ⟨yoe / 100, yoe % 100 / 4, yoe % 4, by omega, by omega, by omega, by omega,
      by omega, by omega, by omega⟩
  subst hD hyoe
  interval_cases c <;> interval_cases r <;> interval_cases q <;> omega

theorem civilCore_dfcDoe (yp mp dd : Int)
    (hyp : 0 ≤ yp) (hmp1 : 0 ≤ mp) (hmp2 : mp ≤ 11) (hdd1 : 0 ≤ dd) (hdd2 : dd ≤ 30)
    (hdim : (mp = 1 ∨ mp = 3 ∨ mp = 6 ∨ mp = 8) → dd ≤ 29)
    (hfeb : mp = 11 → dd ≤ 27 ∨
      (dd = 28 ∧ (yp + 1) % 4 = 0 ∧ ((yp + 1) % 100 ≠ 0 ∨ (yp + 1) % 400 = 0))) :
    civilCore (dfcDoe yp mp dd) = (yp, mp, dd) := by
  have hera : (dfcDoe yp mp dd) / 146097 = yp / 400 := by
    simp only [dfcDoe]; interval_cases mp <;> omega
  have hdoe : (dfcDoe yp mp dd) % 146097 =
      365 * (yp % 400) + (yp % 400) / 4 - (yp % 400) / 100 + ((153 * mp + 2) / 5 + dd) := by
    simp only [dfcDoe]; interval_cases mp <;> omega
  have key : ((dfcDoe yp mp dd) % 146097 - (dfcDoe yp mp dd) % 146097 / 1460 +
      (dfcDoe yp mp dd) % 146097 / 36524 - (dfcDoe yp mp dd) % 146097 / 146096) / 365
      = yp % 400 := by
    apply doeRec (yp % 400) ((153 * mp + 2) / 5 + dd) _ (by omega) (by omega)
      (by interval_cases mp <;> omega)
      (by interval_cases mp <;> omega)
    exact hdoe
  simp only [civilCore, Prod.mk.injEq]
  set E := dfcDoe yp mp dd / 146097 with hE
  set D := dfcDoe yp mp dd % 146097 with hD
  rw [key]
  have hsnd : (5 * (D - (365 * (yp % 400) + yp % 400 / 4 - yp % 400 / 100)) + 2) / 153 = mp := by
    interval_cases mp <;> omega
  refine ⟨by omega, hsnd, by rw [hsnd]; omega⟩

theorem civilFromOrd_ordFromCivil (y m d : Int) (hy : 1 ≤ y)
    (hm1 : 1 ≤ m) (hm2 : m ≤ 12) (hd1 : 1 ≤ d) (hd2 : d ≤ daysInMonth y m) :
    civilFromOrd (ordFromCivil y m d) = (y, m, d) := by
  simp only [daysInMonth, isLeap] at hd2
  have hcore := civilCore_dfcDoe (if m ≤ 2 then y - 1 else y)
    (if 2 < m then m - 3 else m + 9) (d - 1)
    (by split <;> omega) (by split <;> omega) (by split <;> omega)
    (by omega)
    (by split_ifs at hd2 ⊢ <;> simp_all <;> omega)
    (by split_ifs at hd2 ⊢ <;> simp_all <;> omega)
    (by split_ifs at hd2 ⊢ <;> simp_all <;> omega)
  unfold civilFromOrd ordFromCivil
  rw [sub_add_cancel, hcore]
  simp only [Prod.mk.injEq]
  refine ⟨?_, ?_, by omega⟩ <;> split_ifs <;> omega


/-! ## Python string primitives

Strings are modelled as `List Char` (`PyStr`).  The helpers below model the
Python built-ins the codec uses: `str(int)`, `int(str)`, `strftime("%z")`,
`strptime(.., "%z")`, and `str.split()`. -/

abbrev PyStr := List Char

/-- Python's whitespace class for `str.split()` and `\S` (ASCII part). -/
def pySpace (c : Char) : Bool :=
  c = ' ' || c = '\t' || c = '\n' || c = '\r' || c = '\x0b' || c = '\x0c'

def notSpace (c : Char) : Bool := !pySpace c

def digitChar (n : Nat) : Char := Char.ofNat (48 + n)

theorem digitChar_isDigit {n : Nat} (h : n < 10) : (digitChar n).isDigit = true := by
  interval_cases n <;> decide

theorem digitChar_toNat {n : Nat} (h : n < 10) : (digitChar n).toNat = 48 + n := by
  interval_cases n <;> decide

theorem digitChar_notSpace {n : Nat} (h : n < 10) : notSpace (digitChar n) = true := by
  interval_cases n <;> decide

theorem isDigit_notSpace {c : Char} (h : c.isDigit = true) : notSpace c = true := by
  have hps : pySpace c = false := by
    rcases hc : pySpace c
    · rfl
    · exfalso
      simp only [pySpace, Bool.or_eq_true, decide_eq_true_eq] at hc
      rcases hc with ((((h1 | h1) | h1) | h1) | h1) | h1 <;> subst h1 <;>
        exact absurd h (by decide)
  simp [notSpace, hps]

/-- Decimal digits of a natural number (model of Python `str(n)` for `n ≥ 0`). -/
def natToStr (n : Nat) : PyStr :=
  if n < 10 then [digitChar n]
  else natToStr (n / 10) ++ [digitChar (n % 10)]
  decreasing_by omega

theorem natToStr_ne_nil (n : Nat) : natToStr n ≠ [] := by
  rw [natToStr]
  split <;> simp

theorem natToStr_digits (n : Nat) : ∀ c ∈ natToStr n, c.isDigit = true := by
  induction n using Nat.strong_induction_on with
  | _ n ih =>
    rw [natToStr]
    split
    · intro c hc
      simp only [List.mem_singleton] at hc
      subst hc
      exact digitChar_isDigit (by omega)
    · intro c hc
      rcases List.mem_append.mp hc with h | h
      · exact ih (n / 10) (by omega) c h
      · simp only [List.mem_singleton] at h
        subst h
        exact digitChar_isDigit (by omega)

/-- Digit-folding core of the `int(s)` model. -/
def parseDigitsAux (cs : PyStr) : Option Nat :=
  cs.foldl (fun acc c => acc.bind
    (fun a => if c.isDigit then some (10 * a + (c.toNat - 48)) else none)) (some 0)

def parseDigits (cs : PyStr) : Option Nat :=
  if cs = [] then none else parseDigitsAux cs

theorem parseDigitsAux_append (xs : PyStr) (c : Char) :
    parseDigitsAux (xs ++ [c]) = (parseDigitsAux xs).bind
      (fun a => if c.isDigit then some (10 * a + (c.toNat - 48)) else none) := by
  simp [parseDigitsAux, List.foldl_append]

theorem parseDigitsAux_natToStr (n : Nat) : parseDigitsAux (natToStr n) = some n := by
  induction n using Nat.strong_induction_on with
  | _ n ih =>
    rw [natToStr]
    split
    · simp [parseDigitsAux, digitChar_isDigit (by omega : n < 10),
        digitChar_toNat (by omega : n < 10)]
    · rw [parseDigitsAux_append, ih (n / 10) (by omega)]
      simp [digitChar_isDigit (by omega : n % 10 < 10),
        digitChar_toNat (by omega : n % 10 < 10)]
      omega

theorem parseDigits_natToStr (n : Nat) : parseDigits (natToStr n) = some n := by
  rw [parseDigits, if_neg (by simpa using natToStr_ne_nil n)]
  exact parseDigitsAux_natToStr n

/-- Model of Python `str(n)` for an integer. -/
def intToStr (n : Int) : PyStr :=
  if n < 0 then '-' :: natToStr n.natAbs else natToStr n.natAbs

/-- Model of Python `int(s)` (restricted to an optional sign followed by
decimal digits; underscores and surrounding whitespace, which never occur in
the strings this program produces, are not modelled). -/
def pyInt (cs : PyStr) : Except PyErr Int :=
  if cs.head? = some '-' then
    match parseDigits cs.tail with
    | some n => .ok (-(n : Int))
    | none => .error .valueError
  else if cs.head? = some '+' then
    match parseDigits cs.tail with
    | some n => .ok (n : Int)
    | none => .error .valueError
  else
    match parseDigits cs with
    | some n => .ok (n : Int)
    | none => .error .valueError

theorem natToStr_head_digit (n : Nat) :
    ∃ c cs, natToStr n = c :: cs ∧ c.isDigit = true := by
  rcases h : natToStr n with _ | ⟨c, cs⟩
  · exact absurd h (natToStr_ne_nil n)
  · exact ⟨c, cs, rfl, natToStr_digits n c (h ▸ List.mem_cons_self c cs)⟩

theorem pyInt_intToStr (n : Int) : pyInt (intToStr n) = .ok n := by
  obtain ⟨c, cs, hcons, hdig⟩ := natToStr_head_digit n.natAbs
  have hc1 : c ≠ '-' := by
    intro h; subst h; exact absurd hdig (by decide)
  have hc2 : c ≠ '+' := by
    intro h; subst h; exact absurd hdig (by decide)
  by_cases hn : n < 0
  · have h1 : intToStr n = '-' :: natToStr n.natAbs := by simp [intToStr, hn]
    rw [h1]
    simp [pyInt, parseDigits_natToStr]
    rw [abs_of_neg hn]
    ring
  · have h1 : intToStr n = natToStr n.natAbs := by simp [intToStr, hn]
    rw [h1, hcons]
    simp [pyInt, hc1, hc2]
    rw [← hcons, parseDigits_natToStr]
    simp only [Except.ok.injEq]
    omega

theorem intToStr_notSpace (n : Int) : ∀ c ∈ intToStr n, notSpace c = true := by
  intro c hc
  by_cases hn : n < 0
  · rw [show intToStr n = '-' :: natToStr n.natAbs by simp [intToStr, hn]] at hc
    rcases List.mem_cons.mp hc with h | h
    · subst h; decide
    · exact isDigit_notSpace (natToStr_digits _ c h)
  · rw [show intToStr n = natToStr n.natAbs by simp [intToStr, hn]] at hc
    exact isDigit_notSpace (natToStr_digits _ c hc)

theorem intToStr_ne_nil (n : Int) : intToStr n ≠ [] := by
  unfold intToStr
  split
  · simp
  · exact natToStr_ne_nil n.natAbs

def twoDigN (k : Nat) : PyStr := [digitChar (k / 10), digitChar (k % 10)]

/-- Model of `datetime.strftime("%z")` for a fixed offset of `off` minutes:
sign followed by two-digit hours and two-digit minutes. -/
def fmtZ (off : Int) : PyStr :=
  (if off < 0 then '-' else '+') :: (twoDigN (off.natAbs / 60) ++ twoDigN (off.natAbs % 60))

/-- Model of `datetime.strptime(s, "%z").tzinfo` restricted to the
`±HHMM` shape this program emits (other `%z` spellings never occur here);
enforces `timezone`'s strict 24-hour bound. -/
def parseZ (cs : PyStr) : Except PyErr Int :=
  match cs with
  | [s, a, b, c, d] =>
    if (s = '+' ∨ s = '-') ∧ a.isDigit ∧ b.isDigit ∧ c.isDigit ∧ d.isDigit then
      let hh : Nat := (a.toNat - 48) * 10 + (b.toNat - 48)
      let mm : Nat := (c.toNat - 48) * 10 + (d.toNat - 48)
      let off : Int := if s = '-' then -((hh * 60 + mm : Nat) : Int) else ((hh * 60 + mm : Nat) : Int)
      if off ≤ -1440 ∨ 1440 ≤ off then .error .valueError else .ok off
    else .error .valueError
  | _ => .error .valueError

theorem parseZ_fmtZ (off : Int) (h1 : -1439 ≤ off) (h2 : off ≤ 1439) :
    parseZ (fmtZ off) = .ok off := by
  have ha : off.natAbs / 60 / 10 < 10 := by omega
  have hb : off.natAbs / 60 % 10 < 10 := by omega
  have hc : off.natAbs % 60 / 10 < 10 := by omega
  have hd : off.natAbs % 60 % 10 < 10 := by omega
  by_cases hn : off < 0
  · rw [show fmtZ off = ['-', digitChar (off.natAbs / 60 / 10), digitChar (off.natAbs / 60 % 10),
        digitChar (off.natAbs % 60 / 10), digitChar (off.natAbs % 60 % 10)] by
      simp [fmtZ, twoDigN, hn]]
    rw [parseZ]
    rw [if_pos ⟨Or.inr rfl, digitChar_isDigit ha, digitChar_isDigit hb,
      digitChar_isDigit hc, digitChar_isDigit hd⟩]
    simp only [digitChar_toNat ha, digitChar_toNat hb, digitChar_toNat hc, digitChar_toNat hd]
    simp only [if_true, if_false]
    rw [if_neg (by omega)]
    simp only [Except.ok.injEq]
    omega
  · rw [show fmtZ off = ['+', digitChar (off.natAbs / 60 / 10), digitChar (off.natAbs / 60 % 10),
        digitChar (off.natAbs % 60 / 10), digitChar (off.natAbs % 60 % 10)] by
      simp [fmtZ, twoDigN, hn]]
    rw [parseZ]
    rw [if_pos ⟨Or.inl rfl, digitChar_isDigit ha, digitChar_isDigit hb,
      digitChar_isDigit hc, digitChar_isDigit hd⟩]
    simp only [digitChar_toNat ha, digitChar_toNat hb, digitChar_toNat hc, digitChar_toNat hd]
    rw [if_neg (by decide : ¬('+' = '-'))]
    rw [if_neg (by omega)]
    simp only [Except.ok.injEq]
    omega

theorem fmtZ_notSpace (off : Int) (h1 : -1439 ≤ off) (h2 : off ≤ 1439) :
    ∀ c ∈ fmtZ off, notSpace c = true := by
  intro c hc
  have hs : ∀ x ∈ twoDigN (off.natAbs / 60) ++ twoDigN (off.natAbs % 60),
      notSpace x = true := by
    intro x hx
    simp only [twoDigN, List.mem_append, List.mem_cons, List.mem_singleton] at hx
    simp only [List.not_mem_nil, or_false] at hx
    rcases hx with (h | h) | (h | h) <;> subst h <;> exact digitChar_notSpace (by omega)
  rcases List.mem_cons.mp hc with h | h
  · subst h; split <;> decide
  · exact hs c h

theorem fmtZ_ne_nil (off : Int) : fmtZ off ≠ [] := by simp [fmtZ]

theorem takeWhile_all {p : Char → Bool} {l : PyStr} (h : ∀ x ∈ l, p x = true) :
    l.takeWhile p = l := by
  induction l with
  | nil => rfl
  | cons c cs ih =>
    rw [List.takeWhile_cons, if_pos (h c (List.mem_cons_self c cs))]
    rw [ih (fun x hx => h x (List.mem_cons_of_mem c hx))]

theorem dropWhile_all {p : Char → Bool} {l : PyStr} (h : ∀ x ∈ l, p x = true) :
    l.dropWhile p = [] := by
  induction l with
  | nil => rfl
  | cons c cs ih =>
    rw [List.dropWhile_cons, if_pos (h c (List.mem_cons_self c cs))]
    exact ih (fun x hx => h x (List.mem_cons_of_mem c hx))

theorem takeWhile_append_stop {p : Char → Bool} {a : PyStr} {y : Char} (b : PyStr)
    (ha : ∀ x ∈ a, p x = true) (hy : p y = false) :
    (a ++ y :: b).takeWhile p = a := by
  induction a with
  | nil => simp [List.takeWhile_cons, hy]
  | cons c cs ih =>
    rw [List.cons_append, List.takeWhile_cons, if_pos (ha c (List.mem_cons_self c cs))]
    rw [ih (fun x hx => ha x (List.mem_cons_of_mem c hx))]

theorem dropWhile_append_stop {p : Char → Bool} {a : PyStr} {y : Char} (b : PyStr)
    (ha : ∀ x ∈ a, p x = true) (hy : p y = false) :
    (a ++ y :: b).dropWhile p = y :: b := by
  induction a with
  | nil => simp [List.dropWhile_cons, hy]
  | cons c cs ih =>
    rw [List.cons_append, List.dropWhile_cons, if_pos (ha c (List.mem_cons_self c cs))]
    exact ih (fun x hx => ha x (List.mem_cons_of_mem c hx))

/-- Model of `s.split()` destructured into exactly two parts (Python raises
`ValueError` when the number of whitespace-separated words is not two). -/
def pySplitWS2 (xs : PyStr) : Except PyErr (PyStr × PyStr) :=
  let r0 := xs.dropWhile pySpace
  let w1 := r0.takeWhile notSpace
  let r1 := (r0.dropWhile notSpace).dropWhile pySpace
  let w2 := r1.takeWhile notSpace
  let r2 := (r1.dropWhile notSpace).dropWhile pySpace
  if w1 ≠ [] ∧ w2 ≠ [] ∧ r2 = [] then .ok (w1, w2) else .error .valueError

theorem notSpace_false_space : notSpace ' ' = false := by decide

theorem pySpace_of_notSpace {c : Char} (h : notSpace c = true) : pySpace c = false := by
  revert h; simp [notSpace]

theorem pySplitWS2_token (a b : PyStr) (hna : a ≠ []) (hnb : b ≠ [])
    (ha : ∀ x ∈ a, notSpace x = true) (hb : ∀ x ∈ b, notSpace x = true) :
    pySplitWS2 (a ++ ' ' :: b) = .ok (a, b) := by
  obtain ⟨c, cs, rfl⟩ := List.exists_cons_of_ne_nil hna
  have hr0 : (c :: cs ++ ' ' :: b).dropWhile pySpace = c :: cs ++ ' ' :: b := by
    rw [List.cons_append, List.dropWhile_cons,
      if_neg (by simp [pySpace_of_notSpace (ha c (List.mem_cons_self c cs))])]
  have hw1 : (c :: cs ++ ' ' :: b).takeWhile notSpace = c :: cs :=
    takeWhile_append_stop b ha notSpace_false_space
  have hd1 : (c :: cs ++ ' ' :: b).dropWhile notSpace = ' ' :: b :=
    dropWhile_append_stop b ha notSpace_false_space
  obtain ⟨d, ds, rfl⟩ := List.exists_cons_of_ne_nil hnb
  have hr1 : (' ' :: d :: ds).dropWhile pySpace = d :: ds := by
    rw [List.dropWhile_cons, if_pos (by decide), List.dropWhile_cons,
      if_neg (by simp [pySpace_of_notSpace (hb d (List.mem_cons_self d ds))])]
  have hw2 : (d :: ds).takeWhile notSpace = d :: ds := takeWhile_all hb
  have hd2 : (d :: ds).dropWhile notSpace = [] := dropWhile_all hb
  simp only [pySplitWS2]
  rw [hr0, hw1, hd1, hr1, hw2, hd2, List.dropWhile_nil]
  rw [if_pos ⟨by simp, by simp, rfl⟩]


/-! ## `utils.py`: `dt2gitdate` / `gitdate2dt` -/

/-- Model of `datetime.timestamp()` for a whole-second aware datetime:
POSIX seconds of the instant. -/
def timestamp (t : DT) : Int :=
  ordFromCivil t.year t.month t.day * 86400
    + t.hour * 3600 + t.minute * 60 + t.second - t.offMin * 60

/-- `utils.dt2gitdate` (utils.py lines 15-19). -/
def dt2gitdate (t : DT) : PyStr :=
  intToStr (timestamp t) ++ ' ' :: fmtZ t.offMin

/-- Model of `datetime.fromtimestamp(sec, tz)` for a fixed-offset `tz`. -/
def fromtimestamp (sec off : Int) : DT :=
  match civilFromOrd ((sec + off * 60) / 86400) with
  | (y, m, d) =>
    ⟨y, m, d, (sec + off * 60) % 86400 / 3600,
      (sec + off * 60) % 86400 % 3600 / 60, (sec + off * 60) % 86400 % 60, off⟩

/-- `utils.gitdate2dt` (utils.py lines 22-28). -/
def gitdate2dt (s : PyStr) : Except PyErr DT := do
  let (secs, tz) ← pySplitWS2 s
  let n ← pyInt secs
  let off ← parseZ tz
  .ok (fromtimestamp n off)

theorem fromtimestamp_timestamp (t : DT) (h : ValidDT t) :
    fromtimestamp (timestamp t) t.offMin = t := by
  obtain ⟨hy1, hy2, hm1, hm2, hd1, hd2, hh1, hh2, hmi1, hmi2, hs1, hs2, ho1, ho2⟩ := h
  have hloc : timestamp t + t.offMin * 60 = ordFromCivil t.year t.month t.day * 86400
      + (t.hour * 3600 + t.minute * 60 + t.second) := by
    unfold timestamp; ring
  have hdays : (timestamp t + t.offMin * 60) / 86400 = ordFromCivil t.year t.month t.day := by
    rw [hloc]; omega
  have hsod : (timestamp t + t.offMin * 60) % 86400
      = t.hour * 3600 + t.minute * 60 + t.second := by
    rw [hloc]; omega
  unfold fromtimestamp
  rw [hdays, hsod, civilFromOrd_ordFromCivil t.year t.month t.day hy1 hm1 hm2 hd1 hd2]
  ext <;> dsimp only <;> omega

/-- Round trip at the heart of C3: formatting a valid datetime with
`dt2gitdate` and parsing it back with `gitdate2dt` restores it exactly. -/
theorem gitdate2dt_dt2gitdate (t : DT) (h : ValidDT t) :
    gitdate2dt (dt2gitdate t) = .ok t := by
  have ho1 : -1439 ≤ t.offMin := h.2.2.2.2.2.2.2.2.2.2.2.2.1
  have ho2 : t.offMin ≤ 1439 := h.2.2.2.2.2.2.2.2.2.2.2.2.2
  rw [gitdate2dt, dt2gitdate]
  rw [pySplitWS2_token _ _ (intToStr_ne_nil _) (fmtZ_ne_nil _)
    (intToStr_notSpace _) (fmtZ_notSpace _ ho1 ho2)]
  simp only [bind, Except.bind]
  rw [pyInt_intToStr, parseZ_fmtZ _ ho1 ho2]
  dsimp only
  rw [fromtimestamp_timestamp t h]


/-! ## Message codec (`gitprivacy/encoder/msgembed.py`)

The tag regex `TAG_REGEX = r"^GitPrivacy: (\\S+)(?: (\\S+))?"` is matched
per line (`_extract_enc_dates` iterates `splitlines()`;
`re.sub(..., flags=re.MULTILINE)` anchors at line starts, and since neither
the literal nor `\\S` can cross a newline, it rewrites the first match of
every line).  `matchTag` returns the two groups and the text after the match
end.  Messages use `\n` line separators (git normalises commit messages). -/

/-- `MSG_TAG` (msgembed.py line 13). -/
def msgTag : PyStr := "GitPrivacy: ".toList

/-- Split at every newline, keeping a (possibly empty) trailing segment:
the segment structure `re` sees under `MULTILINE`. -/
def splitNL : PyStr → List PyStr
  | [] => [[]]
  | c :: cs =>
    if c = '\n' then [] :: splitNL cs
    else
      match splitNL cs with
      | [] => [[c]]
      | w :: ws => (c :: w) :: ws

/-- Rejoin what `splitNL` produced. -/
def intercalateNL : List PyStr → PyStr
  | [] => []
  | [w] => w
  | w :: ws => w ++ '\n' :: intercalateNL ws

/-- Python `str.splitlines()` (for `\n`-separated strings): like `splitNL`
but without the trailing empty segment. -/
def dropLastBlank (ls : List PyStr) : List PyStr :=
  if ls.getLast? = some [] then ls.dropLast else ls

def splitlines (s : PyStr) : List PyStr := dropLastBlank (splitNL s)

/-- `re.search(TAG_REGEX, line)`: the two groups plus the suffix of the line
after the match end (`\S+` is a maximal nonempty run of non-whitespace; the
second group needs a single space followed by such a run). -/
def matchTag (line : PyStr) : Option (PyStr × Option PyStr × PyStr) :=
  if msgTag.isPrefixOf line then
    let rest := line.drop msgTag.length
    let g1 := rest.takeWhile notSpace
    let r1 := rest.dropWhile notSpace
    if g1 = [] then none
    else
      match r1 with
      | c :: r2 =>
        if c = ' ' then
          if r2.takeWhile notSpace = [] then some (g1, none, r1)
          else some (g1, some (r2.takeWhile notSpace), r2.dropWhile notSpace)
        else some (g1, none, r1)
      | [] => some (g1, none, r1)
  else none

/-- `_contains_tag` (msgembed.py lines 54-56): any line starts with the tag. -/
def containsTag (msg : PyStr) : Bool :=
  (splitlines msg).any (fun l => msgTag.isPrefixOf l)

/-- `_extract_enc_dates` (msgembed.py lines 59-72): groups of the first line
matching the tag regex. -/
def extractEncDates (msg : PyStr) : Option (PyStr × Option PyStr) :=
  (splitlines msg).findSome? (fun l => (matchTag l).map (fun g => (g.1, g.2.1)))

/-- One line of `re.sub`: replace the match (if any) by `newExtra`, keeping
the text after the match end. -/
def subTagLine (newExtra line : PyStr) : PyStr :=
  match matchTag line with
  | some (_, _, rest) => newExtra ++ rest
  | none => line

/-- `re.sub(TAG_REGEX, new_extra, msg, flags=re.MULTILINE)`: every line's
match is replaced (`re.sub` has no count limit here). -/
def reSubTag (newExtra msg : PyStr) : PyStr :=
  intercalateNL ((splitNL msg).map (subTagLine newExtra))

/-- Borrowed view of a git commit (the fields this code reads).  GitPython
datetimes are whole-second fixed-offset aware datetimes; two such datetimes
with equal offsets are `==` iff their broken-down fields agree, so `DT`
equality models datetime `==` wherever it occurs here. -/
structure Commit where
  hexsha : String
  authored_datetime : DT
  committed_datetime : DT
  message : PyStr

/-- Result of `get_message_extra`: either a string to append or a
substitution to run over the whole message. -/
inductive MsgExtra where
  | plain (s : PyStr)
  | subst (f : PyStr → PyStr)

/-- `MessageEmbeddingEncoder.get_message_extra` (msgembed.py lines 25-42).
The `assert ciphers is not None` is modelled as an `AssertionError`. -/
def get_message_extra (enc : PyStr → PyStr) (c : Commit) : Except PyErr MsgExtra :=
  if !containsTag c.message then
    .ok (.plain (msgTag ++ enc (dt2gitdate c.authored_datetime)
      ++ ' ' :: enc (dt2gitdate c.committed_datetime)))
  else
    match extractEncDates c.message with
    | none => .error .assertionError
    | some (adCipher, _) =>
      .ok (.subst (reSubTag (msgTag ++ adCipher
        ++ ' ' :: enc (dt2gitdate c.committed_datetime))))

/-- `BasicEncoder.encode` (encoder/__init__.py lines 30-48) with the
message-embedding `get_message_extra`: returns the redacted dates and the new
message (`[]`, i.e. the empty string, signals "no change"). -/
def encode (pattern : List Char) (limit : Option (Int × Int))
    (enc : PyStr → PyStr) (c : Commit) : Except PyErr (DT × DT × PyStr) :=
  let newA := redact pattern limit c.authored_datetime
  let newC := redact pattern limit c.committed_datetime
  if newA = c.authored_datetime ∧ newC = c.committed_datetime then
    .ok (newA, newC, [])
  else
    match get_message_extra enc c with
    | .error e => .error e
    | .ok (.plain extra) =>
      .ok (newA, newC, if extra = [] then [] else c.message ++ '\n' :: extra)
    | .ok (.subst f) =>
      .ok (newA, newC, if f c.message = c.message then [] else f c.message)

/-- Truthiness of an `Optional[str]`. -/
def truthyS : Option PyStr → Bool
  | none => false
  | some x => !x.isEmpty

/-- `raw.split(";")` destructured into exactly two parts (raises
`ValueError` when the number of parts is not two, i.e. unless the string
contains exactly one semicolon). -/
def splitSemi2 (xs : PyStr) : Except PyErr (PyStr × PyStr) :=
  match xs.dropWhile (fun c => c ≠ ';') with
  | ';' :: r2 =>
    if r2.contains ';' then .error .valueError
    else .ok (xs.takeWhile (fun c => c ≠ ';'), r2)
  | _ => .error .valueError

/-- Final section of `_decrypt_from_msg` (msgembed.py lines 104-111): parse
the surviving raw date strings. -/
def finishDecrypt (ra rc : Option PyStr) : Except PyErr (Option DT × Option DT) := do
  let aDate ← (
    if truthyS ra then
      if (ra.getD []).contains ';' then .error .assertionError
      else do
        let d ← gitdate2dt (ra.getD [])
        pure (some d)
    else pure none)
  let cDate ← (
    if truthyS rc then do
      let d ← gitdate2dt (rc.getD [])
      pure (some d)
    else pure none)
  pure (aDate, cDate)

/-- `_decrypt_from_msg` (msgembed.py lines 80-111).  `crypto` is `None` when
no decryption provider is configured; Python `assert` failures surface as
`AssertionError`.  In the final `else` branch the source asserts
`not raw_adate and not enc_cdate`, which holds there by construction. -/
def decrypt_from_msg (crypto : Option (PyStr → Option PyStr)) (message : PyStr) :
    Except PyErr (Option DT × Option DT) :=
  match extractEncDates message, crypto with
  | none, _ => .ok (none, none)
  | _, none => .ok (none, none)
  | some (encA, encC), some dec =>
    if truthyS encC then
      if truthyS (dec encA) && ((dec encA).getD []).contains ';' then
        match splitSemi2 ((dec encA).getD []) with
        | .error e => .error e
        | .ok (a1, _) => finishDecrypt (some a1) (dec (encC.getD []))
      else finishDecrypt (dec encA) (dec (encC.getD []))
    else if truthyS (dec encA) then
      if ((dec encA).getD []).contains ';' then
        match splitSemi2 ((dec encA).getD []) with
        | .error e => .error e
        | .ok (a1, c1) => finishDecrypt (some a1) (some c1)
      else .error .assertionError
    else finishDecrypt (dec encA) none

/-! ## Crypto provider (`gitprivacy/crypto/secretbox.py`)

The NaCl primitive is external; a box is its observable interface: an
`encrypt` function and a `decrypt` function returning `none` on
`CryptoError` (authentication failure). -/

structure SecretBoxM where
  encrypt : PyStr → PyStr
  decrypt : PyStr → Option PyStr

/-- `MultiSecretDecryptor.decrypt` (secretbox.py lines 52-58): first
successful decryption in archive order, else `none`. -/
def multiDecrypt : List SecretBoxM → PyStr → Option PyStr
  | [], _ => none
  | b :: rest, data =>
    match b.decrypt data with
    | some res => some res
    | none => multiDecrypt rest data

/-- `MultiSecretBox` (secretbox.py lines 61-72): an active-key box plus the
archive (constructed from `get_archived_keys`, newest first). -/
structure MultiSecretBox where
  box : SecretBoxM
  archive : List SecretBoxM

/-- `MultiSecretBox.decrypt` (secretbox.py lines 67-72). -/
def MultiSecretBox.decrypt (m : MultiSecretBox) (data : PyStr) : Option PyStr :=
  match m.box.decrypt data with
  | some res => some res
  | none => multiDecrypt m.archive data

/-! ## Key archive ids (`gitprivacy/cli/keys.py`)

`_int_or_null` catches only `TypeError`, while `int()` on a non-numeric
string raises `ValueError`. -/


/-- Stable descending insertion for `sortDesc`. -/
def insertDesc (a : Int) : List Int → List Int
  | [] => [a]
  | b :: bs => if a > b then a :: b :: bs else b :: insertDesc a bs

/-- Model of Python `sorted(ids, reverse=True)` (stable descending sort). -/
def sortDesc : List Int → List Int
  | [] => []
  | a :: as => insertDesc a (sortDesc as)

/-- `_int_or_null` (keys.py lines 126-130). -/
def intOrNull (s : PyStr) : Except PyErr Int :=
  match pyInt s with
  | .ok n => .ok n
  | .error e => if e = .typeError then .ok 0 else .error e

/-- Python `max(iterable, key=..., default=...)`: first maximal element,
evaluating `key` on each element. -/
def pyMaxByKey (key : PyStr → Except PyErr Int) (l : List PyStr) :
    Except PyErr (Option (PyStr × Int)) :=
  l.foldlM (fun acc x => do
    let kx ← key x
    match acc with
    | none => pure (some (x, kx))
    | some (y, ky) => pure (if kx > ky then some (x, kx) else some (y, ky))) none

/-- The id computation of `_archive_key` (keys.py line 119):
`int(max(os.listdir(archivedir), key=_int_or_null, default=0)) + 1` over the
archive directory listing. -/
def nextArchiveId (files : List PyStr) : Except PyErr Int := do
  match ← pyMaxByKey intOrNull files with
  | none => pure 1
  | some (s, _) => do
    let n ← pyInt s
    pure (n + 1)

/-- The id enumeration of `get_archived_keys` (keys.py lines 174-179):
`sorted(filter(lambda x: x != 0, map(_int_or_null, keyfiles)), reverse=True)`. -/
def archivedIds (files : List PyStr) : Except PyErr (List Int) := do
  let ns ← files.mapM intOrNull
  pure (sortDesc (ns.filter (fun x => x ≠ 0)))

/-! ## Pre-push gate (`gitprivacy/cli/pushcheck.py`)

The repository facade (commit lookup, rev-spec iteration, ancestry) is
external; `check_push` is modelled for the single-refspec stdin line case,
already destructured into the four fields.  The advisory output (suggested
redate base, containing remote branches) does not affect the exit code or
the set of reported oids and is not modelled. -/

def NULL_HEX_SHA : String := "0000000000000000000000000000000000000000"

structure Repo where
  commits : String → Option Commit
  iterCommits : String → List Commit
  isParentOf : Commit → Commit → Bool

/-- `utils.is_already_redacted` (utils.py lines 31-40). -/
def is_already_redacted (pattern : List Char) (limit : Option (Int × Int))
    (c : Commit) : Bool :=
  decide (redact pattern limit c.authored_datetime = c.authored_datetime) &&
    decide (redact pattern limit c.committed_datetime = c.committed_datetime)

/-- The unredacted-commit scan of `check_push` (pushcheck.py lines 89-124):
collect the oids in the check range failing `is_already_redacted`; exit 1
with them if any, else exit 0. -/
def pushGate (repo : Repo) (pattern : List Char) (limit : Option (Int × Int))
    (refs : String) : Except PyErr (Int × List String) :=
  let dirty := ((repo.iterCommits refs).filter
    (fun c => !is_already_redacted pattern limit c)).map (fun c => c.hexsha)
  if dirty.isEmpty then .ok (0, dirty) else .ok (1, dirty)

/-- `check_push` (pushcheck.py lines 14-124): returns the exit code and the
list of unredacted oids printed.  `repo.commit(lhash)` is outside any `try`,
so an unknown local sha raises (`ValueError`); the delete branch asserts the
all-zero local sha. -/
def check_push (repo : Repo) (pattern : List Char) (limit : Option (Int × Int))
    (lref lhash rhash : String) : Except PyErr (Int × List String) :=
  if lref = "(delete)" then
    if lhash = NULL_HEX_SHA then .ok (0, []) else .error .assertionError
  else
    match repo.commits lhash with
    | none => .error .valueError
    | some lc =>
      if rhash = NULL_HEX_SHA then
        pushGate repo pattern limit lhash
      else
        match repo.commits rhash with
        | none => .ok (0, [])
        | some rc =>
          if repo.isParentOf rc lc then pushGate repo pattern limit (rhash ++ ".." ++ lhash)
          else .ok (0, [])


/-! ## Claim theorems: crypto ordering, empty decode paths, key archive -/

/-- All boxes fail: the multi-key decryptor returns `none`. -/
theorem multiDecrypt_none (boxes : List SecretBoxM) (data : PyStr)
    (h : ∀ b ∈ boxes, b.decrypt data = none) : multiDecrypt boxes data = none := by
  induction boxes with
  | nil => rfl
  | cons b rest ih =>
    rw [multiDecrypt, h b (List.mem_cons_self b rest)]
    exact ih (fun x hx => h x (List.mem_cons_of_mem b hx))

/-- The first succeeding box wins. -/
theorem multiDecrypt_first (bs : List SecretBoxM) (b : SecretBoxM) (cs : List SecretBoxM)
    (data r : PyStr) (hbs : ∀ x ∈ bs, x.decrypt data = none) (hb : b.decrypt data = some r) :
    multiDecrypt (bs ++ b :: cs) data = some r := by
  induction bs with
  | nil => rw [List.nil_append, multiDecrypt, hb]
  | cons x xs ih =>
    rw [List.cons_append, multiDecrypt, hbs x (List.mem_cons_self x xs)]
    exact ih (fun y hy => hbs y (List.mem_cons_of_mem x hy))

/-- C7: the multi-key decryptor tries the active key first, then the
archived keys in the given (newest-first) order, returning the first
successful plaintext, or `none` when every key fails.  Consequently a
ciphertext that only box `b1` authenticates decrypts to its plaintext under
`[b1, b2]` and `[b2, b1]`, and to `none` under `[b2]` alone. -/
theorem multiDecrypt_order (b1 b2 : SecretBoxM) (ct V : PyStr)
    (h1 : b1.decrypt ct = some V) (h2 : b2.decrypt ct = none) :
    multiDecrypt [b1, b2] ct = some V ∧
    multiDecrypt [b2, b1] ct = some V ∧
    multiDecrypt [b2] ct = none ∧
    (∀ (m : MultiSecretBox) (data : PyStr),
      m.box.decrypt data = none → (∀ b ∈ m.archive, b.decrypt data = none) →
      m.decrypt data = none) ∧
    (∀ (m : MultiSecretBox) (data r : PyStr) (bs cs : List SecretBoxM) (b : SecretBoxM),
      m.box.decrypt data = none → m.archive = bs ++ b :: cs →
      (∀ x ∈ bs, x.decrypt data = none) → b.decrypt data = some r →
      m.decrypt data = some r) ∧
    (∀ (m : MultiSecretBox) (data r : PyStr),
      m.box.decrypt data = some r → m.decrypt data = some r) := by
  refine ⟨?_, ?_, ?_, ?_, ?_, ?_⟩
  · rw [multiDecrypt, h1]
  · rw [multiDecrypt, h2, multiDecrypt, h1]
  · rw [multiDecrypt, h2, multiDecrypt]
  · intro m data hbox harch
    rw [MultiSecretBox.decrypt, hbox]
    exact multiDecrypt_none m.archive data harch
  · intro m data r bs cs b hbox harch hbs hb
    rw [MultiSecretBox.decrypt, hbox, harch]
    exact multiDecrypt_first bs b cs data r hbs hb
  · intro m data r hbox
    rw [MultiSecretBox.decrypt, hbox]

/-- Witness for C7 with two concrete boxes. -/
theorem multiDecrypt_order_witness :
    multiDecrypt [⟨fun s => s, fun _ => some ['V']⟩, ⟨fun s => s, fun _ => none⟩] ['c']
        = some ['V'] ∧
    multiDecrypt [⟨fun s => s, fun _ => none⟩, ⟨fun s => s, fun _ => some ['V']⟩] ['c']
        = some ['V'] ∧
    multiDecrypt [(⟨fun s => s, fun _ => none⟩ : SecretBoxM)] ['c'] = none := by
  have h := multiDecrypt_order ⟨fun s => s, fun _ => some ['V']⟩
    ⟨fun s => s, fun _ => none⟩ ['c'] ['V'] rfl rfl
  exact ⟨h.1, h.2.1, h.2.2.1⟩

/-- C10: decoding a message with no tag line returns `(None, None)` without
consulting the decryption provider (the result is the same for every
provider, and also when none is configured), and a multi-key decryptor over
an empty key collection returns `None` on every input. -/
theorem decode_no_tag :
    (∀ (dec : PyStr → Option PyStr) (msg : PyStr), extractEncDates msg = none →
      decrypt_from_msg (some dec) msg = .ok (none, none)) ∧
    (∀ msg : PyStr, decrypt_from_msg none msg = .ok (none, none)) ∧
    (∀ data : PyStr, multiDecrypt [] data = none) := by
  refine ⟨?_, ?_, fun _ => rfl⟩
  · intro dec msg h
    unfold decrypt_from_msg
    rw [h]
  · intro msg
    unfold decrypt_from_msg
    rcases h : extractEncDates msg with _ | p
    · rfl
    · rfl

/-- Witness for C10 on a concrete untagged message. -/
theorem decode_no_tag_witness :
    decrypt_from_msg (some (fun _ => some ['x'])) "hello".toList = .ok (none, none) ∧
    decrypt_from_msg none "hello".toList = .ok (none, none) ∧
    multiDecrypt [] ['d'] = none :=
  ⟨decode_no_tag.1 _ _ rfl, decode_no_tag.2.1 _, decode_no_tag.2.2 _⟩

/-- C8: `_int_or_null` catches `TypeError`, but `int()` on a non-numeric
string raises `ValueError`, so a non-integer filename in the archive
directory makes both `_archive_key`'s id computation and
`get_archived_keys`'s id enumeration raise instead of being ignored -
contradicting the source's own comment "sort out non-integer filenames".
On all-integer listings the intended behavior holds (`max + 1`; descending
enumeration). -/
theorem archive_nonint_raises :
    nextArchiveId ["2".toList, "foo".toList] = .error .valueError ∧
    archivedIds ["2".toList, "foo".toList] = .error .valueError ∧
    intOrNull "foo".toList = .error .valueError ∧
    nextArchiveId ["2".toList, "10".toList] = .ok 11 ∧
    archivedIds ["2".toList, "10".toList, "5".toList] = .ok [10, 5, 2] := by
  exact ⟨rfl, rfl, rfl, rfl, rfl⟩


/-! ## Claim theorems: single-cipher decoding (C6) -/

theorem contains_false_of_not_mem {x : PyStr} {c : Char} (h : c ∉ x) :
    x.contains c = false := by
  cases hx : x.contains c
  · rfl
  · exact absurd (List.mem_of_elem_eq_true hx) h

theorem contains_true_of_mem {x : PyStr} {c : Char} (h : c ∈ x) :
    x.contains c = true := List.elem_eq_true_of_mem h

/-- `split(";")` on a string with exactly one semicolon gives its two halves. -/
theorem splitSemi2_exact (x y : PyStr) (hx : ';' ∉ x) (hy : ';' ∉ y) :
    splitSemi2 (x ++ ';' :: y) = .ok (x, y) := by
  have hall : ∀ c ∈ x, (c ≠ ';' : Bool) = true := by
    intro c hc
    simp only [ne_eq, decide_eq_true_eq]
    intro h; subst h; exact hx hc
  rw [splitSemi2, dropWhile_append_stop y hall (by simp),
    takeWhile_append_stop y hall (by simp)]
  simp [hy]

/-- C6 (amended): decoding a message whose tag holds exactly one cipher
token.  If decryption fails (or yields the empty string) the result is
`(None, None)`; if it succeeds with a plaintext of the combined legacy shape
`a;c` (both halves nonempty and parseable) the result is the two parsed
dates; but if it succeeds with a plaintext containing no semicolon the
decoder raises `AssertionError` (the source asserts `";" in raw_adate`)
rather than returning the author date alone. -/
theorem decode_single_cipher (dec : PyStr → Option PyStr) (msg encA : PyStr)
    (hex : extractEncDates msg = some (encA, none)) :
    ((dec encA = none ∨ dec encA = some []) →
      decrypt_from_msg (some dec) msg = .ok (none, none)) ∧
    (∀ p, dec encA = some p → p ≠ [] → p.contains ';' = false →
      decrypt_from_msg (some dec) msg = .error .assertionError) ∧
    (∀ x y dx dy, dec encA = some (x ++ ';' :: y) → x ≠ [] → y ≠ [] →
      ';' ∉ x → ';' ∉ y →
      gitdate2dt x = .ok dx → gitdate2dt y = .ok dy →
      decrypt_from_msg (some dec) msg = .ok (some dx, some dy)) := by
  unfold decrypt_from_msg
  rw [hex]
  dsimp only
  refine ⟨?_, ?_, ?_⟩
  · rintro (h | h) <;> rw [h] <;> rfl
  · intro p hp hne hsemi
    rw [hp]
    have ht : truthyS (some p) = true := by
      simp [truthyS, List.isEmpty_iff, hne]
    have hsm : ';' ∉ p := fun hm => by
      rw [contains_true_of_mem hm] at hsemi
      exact Bool.noConfusion hsemi
    simp [ht, hsm, truthyS]
    exact fun h => absurd h hne
  · intro x y dx dy hp hx hy hsx hsy hgx hgy
    rw [hp]
    have hmem : ';' ∈ x ++ ';' :: y := List.mem_append.mpr (Or.inr (List.mem_cons_self _ _))
    have hts : truthyS (some (x ++ ';' :: y)) = true := by
      simp [truthyS, List.isEmpty_iff]
    rw [if_pos hts]
    simp only [Option.getD_some]
    rw [if_pos (contains_true_of_mem hmem), splitSemi2_exact x y hsx hsy]
    dsimp only
    unfold finishDecrypt
    simp only [Option.getD_some]
    rw [if_pos (by simp [truthyS, List.isEmpty_iff, hx] : truthyS (some x) = true),
      if_neg (fun hct => hsx (List.mem_of_elem_eq_true hct)), hgx]
    dsimp only [bind, Except.bind]
    rw [if_pos (by simp [truthyS, List.isEmpty_iff, hy] : truthyS (some y) = true), hgy]
    rfl

/-- C6 counterexample: one cipher token, decryption succeeds, plaintext
lacks a semicolon - the decoder raises `AssertionError` instead of
returning `(Some author_date, None)` as claimed. -/
theorem decode_single_cipher_no_semi_raises :
    decrypt_from_msg (some (fun _ => some ['x'])) "GitPrivacy: AAAA".toList
      = .error .assertionError := rfl

/-- Witness for C6 on a concrete combined-legacy message. -/
theorem decode_single_cipher_witness :
    decrypt_from_msg
      (some (fun s => if s = "CA".toList then some "1 +0000;2 +0000".toList else none))
      "msg\nGitPrivacy: CA".toList
      = .ok (some ⟨1970, 1, 1, 0, 0, 1, 0⟩, some ⟨1970, 1, 1, 0, 0, 2, 0⟩) ∧
    decrypt_from_msg (some (fun _ => none)) "msg\nGitPrivacy: CA".toList
      = .ok (none, none) := by
  constructor
  · exact (decode_single_cipher
      (fun s => if s = "CA".toList then some "1 +0000;2 +0000".toList else none)
      "msg\nGitPrivacy: CA".toList "CA".toList rfl).2.2
      "1 +0000".toList "2 +0000".toList _ _ rfl (by decide) (by decide)
      (by decide) (by decide) rfl rfl
  · exact (decode_single_cipher (fun _ => none)
      "msg\nGitPrivacy: CA".toList "CA".toList rfl).1 (Or.inl rfl)


/-! ## Claim theorems: the pre-push gate (C4) -/

theorem pushGate_spec (repo : Repo) (p : List Char) (l : Option (Int × Int))
    (refs : String) :
    (pushGate repo p l refs = .ok (0, []) ↔
      ∀ c ∈ repo.iterCommits refs, is_already_redacted p l c = true) ∧
    (¬(∀ c ∈ repo.iterCommits refs, is_already_redacted p l c = true) →
      pushGate repo p l refs = .ok (1,
        ((repo.iterCommits refs).filter
          (fun c => !is_already_redacted p l c)).map (fun c => c.hexsha))) := by
  have hkey : (((repo.iterCommits refs).filter
      (fun c => !is_already_redacted p l c)).map (fun c => c.hexsha)) = [] ↔
      ∀ c ∈ repo.iterCommits refs, is_already_redacted p l c = true := by
    rw [List.map_eq_nil_iff, List.filter_eq_nil_iff]
    constructor
    · intro h c hc
      simpa using h c hc
    · intro h c hc
      simp [h c hc]
  constructor
  · by_cases hall : ∀ c ∈ repo.iterCommits refs, is_already_redacted p l c = true
    · have hnil := hkey.mpr hall
      simp only [pushGate]
      rw [hnil]
      simpa using hall
    · have hne : ¬(((repo.iterCommits refs).filter
          (fun c => !is_already_redacted p l c)).map (fun c => c.hexsha)) = [] :=
        fun h => hall (hkey.mp h)
      simp only [pushGate]
      rw [if_neg (by simpa [List.isEmpty_iff] using hne)]
      constructor
      · intro hcontra
        simp at hcontra
      · intro hall2
        exact absurd hall2 hall
  · intro hdirty
    have hne : ¬(((repo.iterCommits refs).filter
        (fun c => !is_already_redacted p l c)).map (fun c => c.hexsha)) = [] :=
      fun h => hdirty (hkey.mp h)
    simp only [pushGate]
    rw [if_neg (by simpa [List.isEmpty_iff] using hne)]

/-- C4: the pre-push gate.  A delete push (`(delete)` local ref, all-zero
local sha) is always admitted with exit 0.  For a push to an empty remote
the check range is everything reachable from the local sha; for a linear
push (remote sha known locally and an ancestor of the local commit) it is
`rhash..lhash`.  In both cases the gate exits 0 iff every commit in the
range has both dates already redacted, and otherwise exits 1 printing
exactly the unredacted oids. -/
theorem check_push_gate (repo : Repo) (p : List Char) (l : Option (Int × Int))
    (lref lhash rhash : String) (lc : Commit)
    (hnd : lref ≠ "(delete)") (hl : repo.commits lhash = some lc) :
    (∀ rh, check_push repo p l "(delete)" NULL_HEX_SHA rh = .ok (0, [])) ∧
    (rhash = NULL_HEX_SHA →
      ((check_push repo p l lref lhash rhash = .ok (0, []) ↔
        ∀ c ∈ repo.iterCommits lhash, is_already_redacted p l c = true) ∧
       (¬(∀ c ∈ repo.iterCommits lhash, is_already_redacted p l c = true) →
        check_push repo p l lref lhash rhash = .ok (1,
          ((repo.iterCommits lhash).filter
            (fun c => !is_already_redacted p l c)).map (fun c => c.hexsha))))) ∧
    (∀ rc, rhash ≠ NULL_HEX_SHA → repo.commits rhash = some rc →
      repo.isParentOf rc lc = true →
      ((check_push repo p l lref lhash rhash = .ok (0, []) ↔
        ∀ c ∈ repo.iterCommits (rhash ++ ".." ++ lhash),
          is_already_redacted p l c = true) ∧
       (¬(∀ c ∈ repo.iterCommits (rhash ++ ".." ++ lhash),
            is_already_redacted p l c = true) →
        check_push repo p l lref lhash rhash = .ok (1,
          ((repo.iterCommits (rhash ++ ".." ++ lhash)).filter
            (fun c => !is_already_redacted p l c)).map (fun c => c.hexsha))))) := by
  refine ⟨fun rh => by rw [check_push, if_pos rfl, if_pos rfl], ?_, ?_⟩
  · intro hempty
    have hstep : check_push repo p l lref lhash rhash = pushGate repo p l lhash := by
      rw [check_push, if_neg hnd, hl]
      dsimp only
      rw [if_pos hempty]
    rw [hstep]
    exact pushGate_spec repo p l lhash
  · intro rc hne hrc hanc
    have hstep : check_push repo p l lref lhash rhash
        = pushGate repo p l (rhash ++ ".." ++ lhash) := by
      rw [check_push, if_neg hnd, hl]
      dsimp only
      rw [if_neg hne, hrc]
      dsimp only
      rw [if_pos hanc]
    rw [hstep]
    exact pushGate_spec repo p l (rhash ++ ".." ++ lhash)

/-- Witness for C4: a two-commit range with one unredacted commit is
rejected with exit 1 listing that oid; a delete push is admitted. -/
theorem check_push_gate_witness :
    check_push
      ⟨fun h => if h = "L" then some ⟨"L", ⟨2018,12,18,10,0,0,0⟩, ⟨2018,12,18,10,0,0,0⟩, []⟩
        else if h = "R" then some ⟨"R", ⟨2018,12,17,9,0,0,0⟩, ⟨2018,12,17,9,0,0,0⟩, []⟩
        else none,
       fun r => if r = "R..L" then
          [⟨"C1", ⟨2018,12,18,10,0,0,0⟩, ⟨2018,12,18,10,0,0,0⟩, []⟩,
           ⟨"D1", ⟨2018,12,18,10,4,13,0⟩, ⟨2018,12,18,10,4,13,0⟩, []⟩]
         else [],
       fun _ _ => true⟩
      ['m', 's'] none "refs/heads/m" "L" "R" = .ok (1, ["D1"]) ∧
    check_push
      ⟨fun _ => none, fun _ => [], fun _ _ => true⟩
      ['m', 's'] none "(delete)" NULL_HEX_SHA "R" = .ok (0, []) := by
  constructor
  · have h := (check_push_gate
      ⟨fun h => if h = "L" then some ⟨"L", ⟨2018,12,18,10,0,0,0⟩, ⟨2018,12,18,10,0,0,0⟩, []⟩
        else if h = "R" then some ⟨"R", ⟨2018,12,17,9,0,0,0⟩, ⟨2018,12,17,9,0,0,0⟩, []⟩
        else none,
       fun r => if r = "R..L" then
          [⟨"C1", ⟨2018,12,18,10,0,0,0⟩, ⟨2018,12,18,10,0,0,0⟩, []⟩,
           ⟨"D1", ⟨2018,12,18,10,4,13,0⟩, ⟨2018,12,18,10,4,13,0⟩, []⟩]
         else [],
       fun _ _ => true⟩
      ['m', 's'] none "refs/heads/m" "L" "R"
      ⟨"L", ⟨2018,12,18,10,0,0,0⟩, ⟨2018,12,18,10,0,0,0⟩, []⟩
      (by decide) rfl).2.2
      ⟨"R", ⟨2018,12,17,9,0,0,0⟩, ⟨2018,12,17,9,0,0,0⟩, []⟩
      (by decide) rfl rfl
    rw [(h.2 (by decide))]
    rfl
  · exact (check_push_gate
      ⟨fun _ => some ⟨"L", ⟨1,1,1,0,0,0,0⟩, ⟨1,1,1,0,0,0,0⟩, []⟩, fun _ => [], fun _ _ => true⟩
      ['m', 's'] none "x" "L" "R" ⟨"L", ⟨1,1,1,0,0,0,0⟩, ⟨1,1,1,0,0,0,0⟩, []⟩
      (by decide) rfl).1 "R"


/-! ## Structure lemmas for the tag codec -/

theorem splitNL_ne_nil (s : PyStr) : splitNL s ≠ [] := by
  induction s with
  | nil => simp [splitNL]
  | cons c cs ih =>
    rw [splitNL]
    split
    · simp
    · rcases h : splitNL cs with _ | ⟨w, ws⟩
      · simp
      · simp

theorem splitNL_no_nl (s : PyStr) : ∀ l ∈ splitNL s, '\n' ∉ l := by
  induction s with
  | nil =>
    intro l hl
    simp only [splitNL, List.mem_singleton] at hl
    subst hl
    simp
  | cons c cs ih =>
    intro l hl
    rw [splitNL] at hl
    split at hl
    · rcases List.mem_cons.mp hl with h | h
      · subst h; simp
      · exact ih l h
    · rcases hsp : splitNL cs with _ | ⟨w, ws⟩
      · exact absurd hsp (splitNL_ne_nil cs)
      · rw [hsp] at hl
        rcases List.mem_cons.mp hl with h | h
        · subst h
          intro hmem
          rcases List.mem_cons.mp hmem with h2 | h2
          · exact (by assumption : ¬c = '\n') h2.symm
          · exact ih w (hsp ▸ List.mem_cons_self w ws) h2
        · exact ih l (hsp ▸ List.mem_cons_of_mem w h)

theorem splitNL_append_nl (a b : PyStr) :
    splitNL (a ++ '\n' :: b) = splitNL a ++ splitNL b := by
  induction a with
  | nil => simp [splitNL]
  | cons c cs ih =>
    by_cases hc : c = '\n'
    · subst hc
      rw [List.cons_append, splitNL, if_pos rfl, ih, splitNL, if_pos rfl, List.cons_append]
    · rw [List.cons_append, splitNL, if_neg hc, ih]
      rw [splitNL, if_neg hc]
      rcases hsp : splitNL cs with _ | ⟨w, ws⟩
      · exact absurd hsp (splitNL_ne_nil cs)
      · simp

theorem splitNL_of_no_nl (x : PyStr) (h : '\n' ∉ x) : splitNL x = [x] := by
  induction x with
  | nil => rfl
  | cons c cs ih =>
    rw [splitNL, if_neg (fun hc => h (by rw [hc]; exact List.mem_cons_self _ _)),
      ih (fun hm => h (List.mem_cons_of_mem c hm))]

theorem splitNL_intercalateNL (ls : List PyStr) (hne : ls ≠ [])
    (h : ∀ l ∈ ls, '\n' ∉ l) : splitNL (intercalateNL ls) = ls := by
  induction ls with
  | nil => exact absurd rfl hne
  | cons w ws ih =>
    rcases ws with _ | ⟨v, vs⟩
    · rw [intercalateNL, splitNL_of_no_nl w (h w (List.mem_cons_self w []))]
    · have he2 : intercalateNL (w :: v :: vs) = w ++ '\n' :: intercalateNL (v :: vs) := rfl
      rw [he2, splitNL_append_nl,
        splitNL_of_no_nl w (h w (List.mem_cons_self w _)),
        ih (List.cons_ne_nil v vs) (fun l hl => h l (List.mem_cons_of_mem w hl))]
      rfl

theorem mem_splitlines_of_mem_splitNL (m x : PyStr) (hx : x ∈ splitNL m) :
    x ∈ splitlines m ∨ x = [] := by
  unfold splitlines dropLastBlank
  split
  · rcases List.eq_nil_or_concat (splitNL m) with h | ⟨l2, e, h⟩
    · exact absurd h (splitNL_ne_nil m)
    · rw [List.concat_eq_append] at h
      rw [h, List.dropLast_concat]
      rw [h] at hx
      rcases List.mem_append.mp hx with h2 | h2
      · exact Or.inl h2
      · right
        have he : e = [] := by
          have h3 := (by assumption : (splitNL m).getLast? = some [])
          rw [h, List.getLast?_concat] at h3
          exact Option.some.inj h3
        simp only [List.mem_singleton] at h2
        exact h2.trans he
  · exact Or.inl hx

theorem mem_takeWhile_pred {p : Char → Bool} {l : PyStr} :
    ∀ c ∈ l.takeWhile p, p c = true := by
  induction l with
  | nil => intro c hc; simp at hc
  | cons a as ih =>
    intro c hc
    rw [List.takeWhile_cons] at hc
    split at hc
    · rcases List.mem_cons.mp hc with h | h
      · subst h; assumption
      · exact ih c h
    · simp at hc

theorem dropWhile_head_false {p : Char → Bool} {l : PyStr} :
    l.dropWhile p = [] ∨ ∃ r rs, l.dropWhile p = r :: rs ∧ p r = false := by
  induction l with
  | nil => exact Or.inl rfl
  | cons a as ih =>
    rw [List.dropWhile_cons]
    split
    · exact ih
    · exact Or.inr ⟨a, as, rfl, by simp_all⟩

theorem isPrefixOf_append (a b : PyStr) : a.isPrefixOf (a ++ b) = true := by
  induction a with
  | nil => simp [List.isPrefixOf]
  | cons c cs ih => simp [List.isPrefixOf, ih]

/-- `matchTag` on a well-formed tag line: tag prefix, a nonempty space-free
group, a space, a nonempty space-free group, then a suffix that is empty or
starts with whitespace. -/
theorem matchTag_build (g1 g2 rest : PyStr)
    (hg1 : g1 ≠ []) (hg1s : ∀ c ∈ g1, notSpace c = true)
    (hg2 : g2 ≠ []) (hg2s : ∀ c ∈ g2, notSpace c = true)
    (hrest : rest = [] ∨ ∃ r rs, rest = r :: rs ∧ notSpace r = false) :
    matchTag (msgTag ++ g1 ++ ' ' :: (g2 ++ rest)) = some (g1, some g2, rest) := by
  have hpre : msgTag.isPrefixOf (msgTag ++ (g1 ++ ' ' :: (g2 ++ rest))) = true :=
    isPrefixOf_append msgTag _
  have hdrop : (msgTag ++ (g1 ++ ' ' :: (g2 ++ rest))).drop msgTag.length
      = g1 ++ ' ' :: (g2 ++ rest) := List.drop_left msgTag _
  rw [matchTag, List.append_assoc, if_pos hpre, hdrop]
  dsimp only
  rw [takeWhile_append_stop _ hg1s (by decide), if_neg hg1,
    dropWhile_append_stop _ hg1s (by decide)]
  have htw : (g2 ++ rest).takeWhile notSpace = g2 := by
    rcases hrest with h | ⟨r, rs, hr, hrf⟩
    · rw [h, List.append_nil]
      exact takeWhile_all hg2s
    · rw [hr]
      exact takeWhile_append_stop rs hg2s hrf
  have hdw : (g2 ++ rest).dropWhile notSpace = rest := by
    rcases hrest with h | ⟨r, rs, hr, hrf⟩
    · rw [h, List.append_nil, dropWhile_all hg2s]
    · rw [hr]
      exact dropWhile_append_stop rs hg2s hrf
  dsimp only
  rw [if_pos rfl, htw, hdw, if_neg hg2]

/-- Inversion of a successful `matchTag`: the shapes of the groups and of
the suffix after the match. -/
theorem matchTag_inv (line g1 : PyStr) (og2 : Option PyStr) (rest : PyStr)
    (h : matchTag line = some (g1, og2, rest)) :
    msgTag.isPrefixOf line = true ∧
    g1 ≠ [] ∧ (∀ c ∈ g1, notSpace c = true) ∧
    (∀ g2 ∈ og2, g2 ≠ [] ∧ ∀ c ∈ g2, notSpace c = true) ∧
    (rest = [] ∨ ∃ r rs, rest = r :: rs ∧ notSpace r = false) := by
  rw [matchTag] at h
  split at h
  case isFalse => exact absurd h (by simp)
  case isTrue hpre =>
  refine ⟨hpre, ?_⟩
  dsimp only at h
  have hg1w : ∀ c ∈ (line.drop msgTag.length).takeWhile notSpace, notSpace c = true :=
    fun c hc => mem_takeWhile_pred c hc
  have hd1 := dropWhile_head_false (p := notSpace) (l := line.drop msgTag.length)
  split at h
  case isTrue => exact absurd h (by simp)
  case isFalse hg1 =>
  split at h
  case h_2 heq =>
    -- r1 = []: og2 = none, rest = []
    rw [Option.some.injEq, Prod.mk.injEq, Prod.mk.injEq] at h
    obtain ⟨h1, h2, h3⟩ := h
    subst h1
    subst h2
    subst h3
    exact ⟨hg1, hg1w, by simp, Or.inl heq⟩
  case h_1 c r2 heq =>
    split at h
    case isFalse hcs =>
      -- head of r1 is not a space: og2 = none, rest = r1
      rw [Option.some.injEq, Prod.mk.injEq, Prod.mk.injEq] at h
      obtain ⟨h1, h2, h3⟩ := h
      subst h1
      subst h2
      subst h3
      refine ⟨hg1, hg1w, by simp, ?_⟩
      rcases hd1 with hnil | ⟨r, rs, hr, hrf⟩
      · exact Or.inl hnil
      · exact Or.inr ⟨r, rs, hr, hrf⟩
    case isTrue hcs =>
      subst hcs
      split at h
      case isTrue =>
        -- no second token: og2 = none, rest = r1 = ' ' :: r2
        rw [Option.some.injEq, Prod.mk.injEq, Prod.mk.injEq] at h
        obtain ⟨h1, h2, h3⟩ := h
        subst h1
        subst h2
        subst h3
        exact ⟨hg1, hg1w, by simp, Or.inr ⟨' ', r2, heq, by decide⟩⟩
      case isFalse hg2 =>
        rw [Option.some.injEq, Prod.mk.injEq, Prod.mk.injEq] at h
        obtain ⟨h1, h2, h3⟩ := h
        subst h1
        subst h2
        subst h3
        refine ⟨hg1, hg1w, ?_, ?_⟩
        · intro g2 hg2m
          rw [Option.mem_def, Option.some.injEq] at hg2m
          subst hg2m
          exact ⟨hg2, fun c hc => mem_takeWhile_pred c hc⟩
        · rcases dropWhile_head_false (p := notSpace) (l := r2) with hnil | ⟨r, rs, hr, hrf⟩
          · exact Or.inl hnil
          · exact Or.inr ⟨r, rs, hr, hrf⟩


theorem matchTag_none_of_no_tag (m : PyStr) (h : containsTag m = false) :
    ∀ l ∈ splitNL m, matchTag l = none := by
  intro l hl
  rcases mem_splitlines_of_mem_splitNL m l hl with h2 | h2
  · rw [containsTag, List.any_eq_false] at h
    rw [matchTag, if_neg (by simp [h l h2])]
  · subst h2
    rfl

theorem findSome_append_none {α β : Type} (f : α → Option β) (l₁ l₂ : List α)
    (h : ∀ a ∈ l₁, f a = none) : (l₁ ++ l₂).findSome? f = l₂.findSome? f := by
  induction l₁ with
  | nil => rfl
  | cons a as ih =>
    rw [List.cons_append, List.findSome?_cons]
    rw [h a (List.mem_cons_self a as)]
    exact ih (fun x hx => h x (List.mem_cons_of_mem a hx))

theorem matchTag_ne_nil (line g1 : PyStr) (og2 : Option PyStr) (rest : PyStr)
    (h : matchTag line = some (g1, og2, rest)) : line ≠ [] := by
  intro hnil
  subst hnil
  exact Option.noConfusion (h.symm.trans rfl)

/-- The first tag-matching line of `msg ++ '\n' :: x` when `msg` has no tag
line and `x` matches: `x`'s groups. -/
theorem extractEncDates_append_tag (m x g1 : PyStr) (og2 : Option PyStr) (rest : PyStr)
    (hno : containsTag m = false) (hx : '\n' ∉ x)
    (hm : matchTag x = some (g1, og2, rest)) :
    extractEncDates (m ++ '\n' :: x) = some (g1, og2) := by
  have hlines : splitNL (m ++ '\n' :: x) = splitNL m ++ [x] := by
    rw [splitNL_append_nl, splitNL_of_no_nl x hx]
  have hxne : x ≠ [] := matchTag_ne_nil x g1 og2 rest hm
  have hsplit : splitlines (m ++ '\n' :: x) = splitNL m ++ [x] := by
    rw [splitlines, dropLastBlank, hlines, List.getLast?_concat]
    rw [if_neg (by simp [hxne])]
  rw [extractEncDates, hsplit,
    findSome_append_none _ _ _
      (fun l hl => by rw [matchTag_none_of_no_tag m hno l hl]; rfl)]
  simp [List.findSome?_cons, hm]

/-- `matchTag` on a freshly built two-token tag line. -/
theorem matchTag_fresh (g1 g2 : PyStr)
    (hg1 : g1 ≠ []) (hg1s : ∀ c ∈ g1, notSpace c = true)
    (hg2 : g2 ≠ []) (hg2s : ∀ c ∈ g2, notSpace c = true) :
    matchTag (msgTag ++ g1 ++ ' ' :: g2) = some (g1, some g2, []) := by
  have h := matchTag_build g1 g2 [] hg1 hg1s hg2 hg2s (Or.inl rfl)
  rw [List.append_nil] at h
  exact h

theorem digitChar_ne_semi {k : Nat} (h : k < 10) : digitChar k ≠ ';' := by
  interval_cases k <;> decide

theorem natToStr_no_semi (n : Nat) : ';' ∉ natToStr n := fun hm =>
  absurd (natToStr_digits n ';' hm) (by decide)

theorem intToStr_no_semi (n : Int) : ';' ∉ intToStr n := by
  intro hm
  rw [intToStr] at hm
  split at hm
  · rcases List.mem_cons.mp hm with h | h
    · exact absurd h (by decide)
    · exact natToStr_no_semi _ h
  · exact natToStr_no_semi _ hm

theorem fmtZ_no_semi (off : Int) (h1 : -1439 ≤ off) (h2 : off ≤ 1439) :
    ';' ∉ fmtZ off := by
  intro hm
  rw [fmtZ] at hm
  rcases List.mem_cons.mp hm with h | h
  · split at h <;> exact absurd h (by decide)
  · simp only [twoDigN, List.mem_append, List.mem_cons, List.not_mem_nil,
      or_false] at h
    rcases h with (h | h) | (h | h) <;>
      exact absurd h.symm (digitChar_ne_semi (by omega))

/-- No semicolon occurs in a formatted git date string. -/
theorem dt2gitdate_no_semi (t : DT) (h1 : -1439 ≤ t.offMin) (h2 : t.offMin ≤ 1439) :
    ';' ∉ dt2gitdate t := by
  intro hm
  rw [dt2gitdate] at hm
  rcases List.mem_append.mp hm with h | h
  · exact intToStr_no_semi _ h
  · rcases List.mem_cons.mp h with h | h
    · exact absurd h (by decide)
    · exact fmtZ_no_semi t.offMin h1 h2 h


theorem dt2gitdate_ne_nil (t : DT) : dt2gitdate t ≠ [] := by
  rw [dt2gitdate]
  intro h
  exact intToStr_ne_nil _ (List.append_eq_nil.mp h).1


/-! ## Claim theorems: encode/decode round trip (C3) -/

/-- C3 (amended): for a commit whose message has no tag line and whose dates
are not both already redacted (so the encoder embeds a fresh tag), encoding
appends one tag line, and decoding the resulting message under the same key
returns the original author and committer dates exactly (Git commit dates
are whole seconds), offsets included.  The hypotheses on `enc`/`dec` are the
authenticated-encryption contract of the external NaCl SecretBox: round
trip under the active key and base64 (hence nonempty whitespace-free)
ciphertext tokens. -/
theorem encode_decode_roundtrip (p : List Char) (l : Option (Int × Int))
    (enc : PyStr → PyStr) (dec : PyStr → Option PyStr) (c : Commit)
    (hva : ValidDT c.authored_datetime) (hvc : ValidDT c.committed_datetime)
    (hdeca : dec (enc (dt2gitdate c.authored_datetime))
      = some (dt2gitdate c.authored_datetime))
    (hdecc : dec (enc (dt2gitdate c.committed_datetime))
      = some (dt2gitdate c.committed_datetime))
    (hta : enc (dt2gitdate c.authored_datetime) ≠ [] ∧
      ∀ ch ∈ enc (dt2gitdate c.authored_datetime), notSpace ch = true)
    (htc : enc (dt2gitdate c.committed_datetime) ≠ [] ∧
      ∀ ch ∈ enc (dt2gitdate c.committed_datetime), notSpace ch = true)
    (hnotag : containsTag c.message = false)
    (hchanged : ¬(redact p l c.authored_datetime = c.authored_datetime ∧
      redact p l c.committed_datetime = c.committed_datetime)) :
    encode p l enc c = .ok (redact p l c.authored_datetime,
      redact p l c.committed_datetime,
      c.message ++ '\n' :: (msgTag ++ enc (dt2gitdate c.authored_datetime)
        ++ ' ' :: enc (dt2gitdate c.committed_datetime))) ∧
    decrypt_from_msg (some dec)
      (c.message ++ '\n' :: (msgTag ++ enc (dt2gitdate c.authored_datetime)
        ++ ' ' :: enc (dt2gitdate c.committed_datetime)))
      = .ok (some c.authored_datetime, some c.committed_datetime) := by
  have ho1a : -1439 ≤ c.authored_datetime.offMin :=
    hva.2.2.2.2.2.2.2.2.2.2.2.2.1
  have ho2a : c.authored_datetime.offMin ≤ 1439 :=
    hva.2.2.2.2.2.2.2.2.2.2.2.2.2
  have ho1c : -1439 ≤ c.committed_datetime.offMin :=
    hvc.2.2.2.2.2.2.2.2.2.2.2.2.1
  have ho2c : c.committed_datetime.offMin ≤ 1439 :=
    hvc.2.2.2.2.2.2.2.2.2.2.2.2.2
  constructor
  · simp only [encode]
    rw [if_neg hchanged, get_message_extra, hnotag]
    rw [if_pos (by decide : (!false) = true)]
    dsimp only
    split
    case isTrue h => exact absurd (List.append_eq_nil.mp h).2 (by simp)
    case isFalse => rfl
  · have hnl : '\n' ∉ msgTag ++ enc (dt2gitdate c.authored_datetime)
        ++ ' ' :: enc (dt2gitdate c.committed_datetime) := by
      intro hm
      rcases List.mem_append.mp hm with h | h
      · rcases List.mem_append.mp h with h | h
        · exact absurd h (by decide)
        · exact absurd (hta.2 _ h) (by decide)
      · rcases List.mem_cons.mp h with h | h
        · exact absurd h (by decide)
        · exact absurd (htc.2 _ h) (by decide)
    have hext := extractEncDates_append_tag c.message
      (msgTag ++ enc (dt2gitdate c.authored_datetime)
        ++ ' ' :: enc (dt2gitdate c.committed_datetime))
      (enc (dt2gitdate c.authored_datetime))
      (some (enc (dt2gitdate c.committed_datetime))) []
      hnotag hnl
      (matchTag_fresh _ _ hta.1 hta.2 htc.1 htc.2)
    unfold decrypt_from_msg
    rw [hext]
    dsimp only
    rw [if_pos (by simp [truthyS, List.isEmpty_iff, htc.1]), hdeca]
    rw [if_neg (by
      intro h
      rw [Bool.and_eq_true] at h
      exact (dt2gitdate_no_semi _ ho1a ho2a) (List.mem_of_elem_eq_true h.2))]
    simp only [Option.getD_some]
    rw [hdecc]
    unfold finishDecrypt
    simp only [Option.getD_some]
    rw [if_pos (by simp [truthyS, List.isEmpty_iff, dt2gitdate_ne_nil]
        : truthyS (some (dt2gitdate c.authored_datetime)) = true),
      if_neg (fun hct => (dt2gitdate_no_semi _ ho1a ho2a)
        (List.mem_of_elem_eq_true hct)),
      gitdate2dt_dt2gitdate _ hva]
    dsimp only [bind, Except.bind]
    rw [if_pos (by simp [truthyS, List.isEmpty_iff, dt2gitdate_ne_nil]
        : truthyS (some (dt2gitdate c.committed_datetime)) = true),
      gitdate2dt_dt2gitdate _ hvc]
    rfl

/-- C3 counterexample: for a commit whose dates are already fully redacted
(here: pattern `s` and dates with zero seconds) and whose message has no
tag, `encode` makes no message change (empty new-message convention), so
the message still carries no tag and decoding yields `(None, None)` - not
`(Some a, Some c)` as the unconditional claim states. -/
theorem encode_decode_counterexample :
    encode ['s'] none (fun _ => ['A'])
      ⟨"x", ⟨2018, 12, 18, 14, 42, 0, 0⟩, ⟨2018, 12, 18, 14, 42, 0, 0⟩, "hello".toList⟩
      = .ok (⟨2018, 12, 18, 14, 42, 0, 0⟩, ⟨2018, 12, 18, 14, 42, 0, 0⟩, []) ∧
    decrypt_from_msg (some (fun _ => some "1 +0000".toList)) "hello".toList
      = .ok (none, none) := by
  exact ⟨rfl, rfl⟩


/-! ## Claim theorems: re-encoding a tagged message (C5) -/

/-- Number of lines of a message matching the tag pattern. -/
def countTagLines (msg : PyStr) : Nat :=
  ((splitlines msg).filter (fun l => (matchTag l).isSome)).length

theorem subTagLine_none {newX l : PyStr} (h : matchTag l = none) :
    subTagLine newX l = l := by
  rw [subTagLine, h]

theorem map_eq_self_of {f : PyStr → PyStr} {l : List PyStr}
    (h : ∀ x ∈ l, f x = x) : l.map f = l := by
  induction l with
  | nil => rfl
  | cons a as ih =>
    rw [List.map_cons, h a (List.mem_cons_self a as),
      ih (fun x hx => h x (List.mem_cons_of_mem a hx))]

theorem notSpace_ne_nl {c : Char} (h : notSpace c = true) : c ≠ '\n' := by
  intro hc
  subst hc
  exact absurd h (by decide)

theorem mem_dropLastBlank_of_ne_nil {ls : List PyStr} {x : PyStr}
    (hx : x ∈ ls) (hne : x ≠ []) : x ∈ dropLastBlank ls := by
  rw [dropLastBlank]
  split
  · rcases List.eq_nil_or_concat ls with h | ⟨l2, e, h⟩
    · subst h; simp at hx
    · rw [List.concat_eq_append] at h
      subst h
      have he : e = [] := by
        have h3 := (by assumption : (l2 ++ [e]).getLast? = some [])
        rw [List.getLast?_concat] at h3
        exact Option.some.inj h3
      rw [List.dropLast_concat]
      rcases List.mem_append.mp hx with h2 | h2
      · exact h2
      · simp only [List.mem_singleton] at h2
        exact absurd (h2.trans he) hne
  · exact hx

theorem filter_dropLastBlank (p : PyStr → Bool) (hp : p [] = false)
    (ls : List PyStr) : (dropLastBlank ls).filter p = ls.filter p := by
  rw [dropLastBlank]
  split
  · rcases List.eq_nil_or_concat ls with h | ⟨l2, e, h⟩
    · subst h; rfl
    · rw [List.concat_eq_append] at h
      subst h
      have he : e = [] := by
        have h3 := (by assumption : (l2 ++ [e]).getLast? = some [])
        rw [List.getLast?_concat] at h3
        exact Option.some.inj h3
      subst he
      rw [List.dropLast_concat, List.filter_append]
      simp [hp]
  · rfl

/-- The suffix after a `matchTag` match consists of characters of the line. -/
theorem matchTag_rest_subset (line g1 : PyStr) (og2 : Option PyStr) (rest : PyStr)
    (h : matchTag line = some (g1, og2, rest)) : ∀ ch ∈ rest, ch ∈ line := by
  have hdropsub : (line.drop msgTag.length).Sublist line := List.drop_sublist _ _
  rw [matchTag] at h
  split at h
  case isFalse => exact absurd h (by simp)
  case isTrue hpre =>
  dsimp only at h
  split at h
  case isTrue => exact absurd h (by simp)
  case isFalse hg1 =>
  split at h
  case h_2 heq =>
    rw [Option.some.injEq, Prod.mk.injEq, Prod.mk.injEq] at h
    obtain ⟨h1, h2, h3⟩ := h
    subst h3
    intro ch hch
    exact ((List.dropWhile_sublist _).trans hdropsub).mem hch
  case h_1 c r2 heq =>
    split at h
    case isFalse hcs =>
      rw [Option.some.injEq, Prod.mk.injEq, Prod.mk.injEq] at h
      obtain ⟨h1, h2, h3⟩ := h
      subst h3
      intro ch hch
      exact ((List.dropWhile_sublist _).trans hdropsub).mem hch
    case isTrue hcs =>
      split at h
      case isTrue =>
        rw [Option.some.injEq, Prod.mk.injEq, Prod.mk.injEq] at h
        obtain ⟨h1, h2, h3⟩ := h
        subst h3
        intro ch hch
        exact ((List.dropWhile_sublist _).trans hdropsub).mem hch
      case isFalse hg2 =>
        rw [Option.some.injEq, Prod.mk.injEq, Prod.mk.injEq] at h
        obtain ⟨h1, h2, h3⟩ := h
        subst h3
        intro ch hch
        have hs1 : (List.dropWhile notSpace r2).Sublist (c :: r2) :=
          (List.dropWhile_sublist _).trans (List.sublist_cons_self c r2)
        have hs2 : (c :: r2).Sublist line := by
          rw [← heq]
          exact (List.dropWhile_sublist _).trans hdropsub
        exact (hs1.trans hs2).mem hch

/-- C5 (amended): re-encoding a commit whose message has exactly one line
matching the tag pattern.  `get_message_extra` returns the substitution
built from the matched line's first group (the author-date ciphertext,
preserved verbatim) and a fresh committer-date ciphertext; applying it
rewrites that line (keeping any text after the match) and leaves every
other line unchanged, and the result contains exactly one tag line.  (When
several lines match, `re.sub` rewrites each of them, not only the first -
see the counterexample.) -/
theorem reencode_single_tag (enc : PyStr → PyStr) (c : Commit)
    (pre post : List PyStr) (tagline g1 : PyStr) (og2 : Option PyStr) (rest : PyStr)
    (htc : enc (dt2gitdate c.committed_datetime) ≠ [] ∧
      ∀ ch ∈ enc (dt2gitdate c.committed_datetime), notSpace ch = true)
    (hsplit : splitNL c.message = pre ++ tagline :: post)
    (hpre : ∀ l ∈ pre, matchTag l = none)
    (hpost : ∀ l ∈ post, matchTag l = none)
    (htag : matchTag tagline = some (g1, og2, rest)) :
    get_message_extra enc c = .ok (.subst (reSubTag
      (msgTag ++ g1 ++ ' ' :: enc (dt2gitdate c.committed_datetime)))) ∧
    reSubTag (msgTag ++ g1 ++ ' ' :: enc (dt2gitdate c.committed_datetime)) c.message
      = intercalateNL (pre ++ (msgTag ++ g1
          ++ ' ' :: (enc (dt2gitdate c.committed_datetime) ++ rest)) :: post) ∧
    countTagLines (reSubTag
      (msgTag ++ g1 ++ ' ' :: enc (dt2gitdate c.committed_datetime)) c.message) = 1 := by
  obtain ⟨hpfx, hg1ne, hg1s, _hog2, hrest⟩ := matchTag_inv tagline g1 og2 rest htag
  have htagne : tagline ≠ [] := matchTag_ne_nil tagline g1 og2 rest htag
  have htagmem : tagline ∈ splitNL c.message := by
    rw [hsplit]
    exact List.mem_append.mpr (Or.inr (List.mem_cons_self _ _))
  have hcontains : containsTag c.message = true := by
    rw [containsTag, List.any_eq_true]
    exact ⟨tagline, mem_dropLastBlank_of_ne_nil htagmem htagne, hpfx⟩
  have hdlb : ∃ post2, splitlines c.message = pre ++ tagline :: post2 ∧
      ∀ l ∈ post2, matchTag l = none := by
    rw [splitlines, dropLastBlank, hsplit]
    split
    · rcases List.eq_nil_or_concat post with h | ⟨l2, e, h⟩
      · subst h
        have h3 := (by assumption : (pre ++ tagline :: ([] : List PyStr)).getLast? = some [])
        rw [show pre ++ tagline :: ([] : List PyStr) = pre ++ [tagline] from rfl,
          List.getLast?_concat] at h3
        exact absurd (Option.some.inj h3) htagne
      · rw [List.concat_eq_append] at h
        subst h
        refine ⟨l2, ?_, fun l hl => hpost l (List.mem_append.mpr (Or.inl hl))⟩
        rw [show pre ++ tagline :: (l2 ++ [e]) = (pre ++ tagline :: l2) ++ [e] by
          simp [List.append_assoc]]
        rw [List.dropLast_concat]
    · exact ⟨post, rfl, hpost⟩
  obtain ⟨post2, hsl, hpost2⟩ := hdlb
  have hext : extractEncDates c.message = some (g1, og2) := by
    rw [extractEncDates, hsl,
      findSome_append_none _ _ _ (fun l hl => by rw [hpre l hl]; rfl),
      List.findSome?_cons]
    simp [htag]
  have hassoc : (msgTag ++ g1 ++ ' ' :: enc (dt2gitdate c.committed_datetime)) ++ rest
      = msgTag ++ g1 ++ ' ' :: (enc (dt2gitdate c.committed_datetime) ++ rest) := by
    simp [List.append_assoc]
  have hsub : reSubTag (msgTag ++ g1 ++ ' ' :: enc (dt2gitdate c.committed_datetime))
      c.message = intercalateNL (pre ++ (msgTag ++ g1
        ++ ' ' :: (enc (dt2gitdate c.committed_datetime) ++ rest)) :: post) := by
    rw [reSubTag, hsplit, List.map_append, List.map_cons,
      map_eq_self_of (fun x hx => subTagLine_none (hpre x hx)),
      map_eq_self_of (fun x hx => subTagLine_none (hpost x hx)),
      subTagLine, htag]
    dsimp only
    rw [hassoc]
  refine ⟨?_, hsub, ?_⟩
  · rw [get_message_extra, hcontains]
    rw [if_neg (by decide : ¬((!true) = true)), hext]
  · have hnewline : matchTag (msgTag ++ g1
        ++ ' ' :: (enc (dt2gitdate c.committed_datetime) ++ rest))
        = some (g1, some (enc (dt2gitdate c.committed_datetime)), rest) :=
      matchTag_build g1 (enc (dt2gitdate c.committed_datetime)) rest
        hg1ne hg1s htc.1 htc.2 hrest
    have hnl : ∀ l ∈ pre ++ (msgTag ++ g1
        ++ ' ' :: (enc (dt2gitdate c.committed_datetime) ++ rest)) :: post,
        '\n' ∉ l := by
      intro l hl
      rcases List.mem_append.mp hl with h | h
      · exact splitNL_no_nl c.message l (hsplit ▸ List.mem_append.mpr (Or.inl h))
      · rcases List.mem_cons.mp h with h | h
        · subst h
          intro hm
          rcases List.mem_append.mp hm with h2 | h2
          · rcases List.mem_append.mp h2 with h3 | h3
            · exact absurd h3 (by decide)
            · exact absurd (hg1s _ h3) (by decide)
          · rcases List.mem_cons.mp h2 with h3 | h3
            · exact absurd h3 (by decide)
            · rcases List.mem_append.mp h3 with h4 | h4
              · exact absurd (htc.2 _ h4) (by decide)
              · exact splitNL_no_nl c.message tagline htagmem
                  (matchTag_rest_subset tagline g1 og2 rest htag _ h4)
        · exact splitNL_no_nl c.message l (hsplit ▸ List.mem_append.mpr
            (Or.inr (List.mem_cons_of_mem _ h)))
    rw [countTagLines, hsub, splitlines,
      splitNL_intercalateNL _ (by simp) hnl,
      filter_dropLastBlank _ (by decide) _,
      List.filter_append, List.filter_cons]
    have hfpre : pre.filter (fun l => (matchTag l).isSome) = [] :=
      List.filter_eq_nil_iff.mpr (fun l hl => by simp [hpre l hl])
    have hfpost : post.filter (fun l => (matchTag l).isSome) = [] :=
      List.filter_eq_nil_iff.mpr (fun l hl => by simp [hpost l hl])
    have hcond : (matchTag (msgTag ++ g1
        ++ ' ' :: (enc (dt2gitdate c.committed_datetime) ++ rest))).isSome = true := by
      rw [hnewline]
      rfl
    rw [hfpre, hfpost, if_pos hcond]
    rfl

/-- C5 counterexample: a commit whose message holds two tag lines.  `re.sub`
has no count limit, so the substitution rewrites both lines: the result
still has two tag lines (the claim says exactly one), and the second line's
author-date ciphertext is overwritten with the first line's (the claim says
the author ciphertext is preserved and only the first matching line is
rewritten). -/
theorem reencode_two_tags_counterexample :
    get_message_extra (fun _ => "EEE".toList)
      ⟨"x", ⟨2018, 12, 18, 14, 42, 13, 60⟩, ⟨2018, 12, 18, 14, 42, 13, 60⟩,
        "one\nGitPrivacy: A B\nGitPrivacy: C D\ntwo".toList⟩
      = .ok (.subst (reSubTag "GitPrivacy: A EEE".toList)) ∧
    reSubTag "GitPrivacy: A EEE".toList
        "one\nGitPrivacy: A B\nGitPrivacy: C D\ntwo".toList
      = "one\nGitPrivacy: A EEE\nGitPrivacy: A EEE\ntwo".toList ∧
    countTagLines "one\nGitPrivacy: A EEE\nGitPrivacy: A EEE\ntwo".toList = 2 :=
  ⟨rfl, rfl, rfl⟩

/-- Witness for `reencode_single_tag`: a concrete commit with one tag line
`GitPrivacy: A B`; the author ciphertext `A` is kept and the committer
token becomes the fresh ciphertext `EEE`. -/
theorem reencode_single_tag_witness :
    get_message_extra (fun _ => "EEE".toList)
        ⟨"x", ⟨2018, 12, 18, 14, 42, 13, 60⟩, ⟨2018, 12, 18, 14, 42, 13, 60⟩,
          "one\nGitPrivacy: A B\ntwo".toList⟩
      = .ok (.subst (reSubTag (msgTag ++ "A".toList ++ ' ' :: "EEE".toList))) ∧
    reSubTag (msgTag ++ "A".toList ++ ' ' :: "EEE".toList)
        "one\nGitPrivacy: A B\ntwo".toList
      = intercalateNL (["one".toList]
          ++ (msgTag ++ "A".toList ++ ' ' :: ("EEE".toList ++ [])) :: ["two".toList]) ∧
    countTagLines (reSubTag (msgTag ++ "A".toList ++ ' ' :: "EEE".toList)
        "one\nGitPrivacy: A B\ntwo".toList) = 1 :=
  reencode_single_tag (fun _ => "EEE".toList)
    ⟨"x", ⟨2018, 12, 18, 14, 42, 13, 60⟩, ⟨2018, 12, 18, 14, 42, 13, 60⟩,
      "one\nGitPrivacy: A B\ntwo".toList⟩
    ["one".toList] ["two".toList] "GitPrivacy: A B".toList "A".toList
    (some "B".toList) []
    (by decide) (by decide) (by decide) (by decide) (by decide)

/-- Witness for `encode_decode_roundtrip`: a concrete commit (both dates
2018-12-18 14:42:13 +0100, untagged message `hello`), pattern `s` (so the
dates are not already redacted), and a one-entry encryption table. -/
theorem encode_decode_roundtrip_witness :
    encode ['s'] none (fun _ => ['A'])
        ⟨"x", ⟨2018, 12, 18, 14, 42, 13, 60⟩, ⟨2018, 12, 18, 14, 42, 13, 60⟩,
          "hello".toList⟩
      = .ok (redact ['s'] none ⟨2018, 12, 18, 14, 42, 13, 60⟩,
          redact ['s'] none ⟨2018, 12, 18, 14, 42, 13, 60⟩,
          "hello".toList ++ '\n' :: (msgTag ++ ['A'] ++ ' ' :: ['A'])) ∧
    decrypt_from_msg (some (fun s => if s = ['A']
        then some (dt2gitdate ⟨2018, 12, 18, 14, 42, 13, 60⟩) else none))
      ("hello".toList ++ '\n' :: (msgTag ++ ['A'] ++ ' ' :: ['A']))
      = .ok (some ⟨2018, 12, 18, 14, 42, 13, 60⟩,
          some ⟨2018, 12, 18, 14, 42, 13, 60⟩) :=
  encode_decode_roundtrip ['s'] none (fun _ => ['A'])
    (fun s => if s = ['A']
      then some (dt2gitdate ⟨2018, 12, 18, 14, 42, 13, 60⟩) else none)
    ⟨"x", ⟨2018, 12, 18, 14, 42, 13, 60⟩, ⟨2018, 12, 18, 14, 42, 13, 60⟩,
      "hello".toList⟩
    (by decide) (by decide) rfl rfl (by decide) (by decide)
    (by decide) (by decide)

end GitPrivacy
